import Mathlib

/-!
Verification of the core intention codec, temporal policy and interaction
store of the `ambient` repository (src/lib/intention.ts, provided as
src/unnamed/part_000).

The embedding is shallow and executable:
* machine text is List Char / String, bytes are Nat values below 256;
* JSON values are a mutual inductive (numeric literals are kept as the
  matched decimal text, since the claims under scrutiny only involve
  integer-valued counters and timestamps, never IEEE floats);
* the browser key-value store (localStorage) is a function from keys to
  optional string values;
* the platform date parser (new Date(s).getTime()) is passed in explicitly
  as a function argument of type String -> Option Int, with none standing
  for NaN;
* thrown exceptions are Except / Option failure values.
-/

/-- The record shape of src/unnamed/part_000, interface IntentionData.
The source field named with the Lean keyword is rendered where'. -/
structure IntentionData where
  what : String
  when : String
  where' : Option String
  note : Option String
  createdAt : Nat
deriving DecidableEq

/-- interface IntentionStats of the source: per-token counters. -/
structure IntentionStats where
  interested : Nat
  here : Nat
deriving DecidableEq

/-- The source union type for interactions: 'interested' | 'here'. -/
inductive InteractionKind where
  | interested
  | here
deriving DecidableEq

/-- The literal string a kind denotes (property name in the source). -/
def kindField : InteractionKind → String
  | .interested => "interested"
  | .here => "here"

/-! ## Decimal digits of natural numbers
JSON.stringify prints nonnegative integers as plain decimal digits.
A fuel-driven definition keeps every function kernel-reducible. -/

/-- One decimal digit character, 0 ≤ d ≤ 9. -/
def digitChar (d : Nat) : Char := Char.ofNat (48 + d)

/-- Accumulator loop producing the decimal digits of n (most significant
first), structurally recursive on the fuel. -/
def natDigitsAux : Nat → Nat → List Char → List Char
  | 0, _, acc => acc
  | fuel + 1, n, acc =>
    if n < 10 then digitChar n :: acc
    else natDigitsAux fuel (n / 10) (digitChar (n % 10) :: acc)

/-- Decimal digit string of a natural number, e.g. natDigits 30 = "30". -/
def natDigits (n : Nat) : List Char := natDigitsAux (n + 1) n []

/-- Is c one of the characters '0' to '9'? -/
def isDigitChar (c : Char) : Bool := 48 ≤ c.toNat && c.toNat ≤ 57

/-- Numeric value of a decimal digit list; none if a non-digit occurs or
the list is empty. -/
def digitsToNat : List Char → Option Nat
  | [] => none
  | cs => go cs 0
where go : List Char → Nat → Option Nat
  | [], acc => some acc
  | c :: cs, acc =>
    if isDigitChar c then go cs (acc * 10 + (c.toNat - 48)) else none

theorem natDigitsAux_append (fuel n : Nat) (acc : List Char) :
    natDigitsAux fuel n acc = natDigitsAux fuel n [] ++ acc := by
  induction fuel generalizing n acc with
  | zero => simp [natDigitsAux]
  | succ fuel ih =>
    by_cases h : n < 10
    · simp [natDigitsAux, h]
    · rw [natDigitsAux, if_neg h, natDigitsAux, if_neg h,
        ih (n / 10) (digitChar (n % 10) :: acc),
        ih (n / 10) [digitChar (n % 10)]]
      simp

theorem natDigitsAux_eq (fuel fuel' n : Nat) (hn : n < fuel) (hn' : n < fuel') :
    natDigitsAux fuel n [] = natDigitsAux fuel' n [] := by
  induction fuel generalizing fuel' n with
  | zero => omega
  | succ fuel ih =>
    cases fuel' with
    | zero => omega
    | succ fuel' =>
      by_cases h : n < 10
      · simp [natDigitsAux, h]
      · rw [natDigitsAux, if_neg h, natDigitsAux, if_neg h,
          natDigitsAux_append fuel, natDigitsAux_append fuel',
          ih fuel' (n / 10) (by omega) (by omega)]

theorem natDigits_ge_ten (n : Nat) (h : 10 ≤ n) :
    natDigits n = natDigits (n / 10) ++ [digitChar (n % 10)] := by
  unfold natDigits
  rw [natDigitsAux, if_neg (by omega), natDigitsAux_append,
    natDigitsAux_eq n (n / 10 + 1) (n / 10) (by omega) (by omega)]

theorem natDigits_lt_ten (n : Nat) (h : n < 10) :
    natDigits n = [digitChar n] := by
  unfold natDigits
  rw [natDigitsAux, if_pos h]

theorem digitChar_isDigit (d : Nat) (h : d < 10) :
    isDigitChar (digitChar d) = true := by
  interval_cases d <;> decide

theorem natDigits_all_digits (n : Nat) :
    ∀ c ∈ natDigits n, isDigitChar c = true := by
  induction n using Nat.strong_induction_on with
  | _ n ih =>
    by_cases h : n < 10
    · rw [natDigits_lt_ten n h]
      intro c hc
      simp at hc
      subst hc
      exact digitChar_isDigit n h
    · rw [natDigits_ge_ten n (by omega)]
      intro c hc
      rcases List.mem_append.mp hc with h1 | h2
      · exact ih (n / 10) (by omega) c h1
      · simp at h2
        subst h2
        exact digitChar_isDigit (n % 10) (by omega)

theorem natDigits_ne_nil (n : Nat) : natDigits n ≠ [] := by
  by_cases h : n < 10
  · rw [natDigits_lt_ten n h]; simp
  · rw [natDigits_ge_ten n (by omega)]; simp

theorem natDigits_head_ne_zero (n : Nat) (hn : n ≠ 0) :
    ∀ c, (natDigits n).head? = some c → c ≠ '0' := by
  induction n using Nat.strong_induction_on with
  | _ n ih =>
    by_cases h : n < 10
    · rw [natDigits_lt_ten n h]
      intro c hc
      simp at hc
      subst hc
      interval_cases n <;> simp_all <;> decide
    · rw [natDigits_ge_ten n (by omega)]
      intro c hc
      rw [List.head?_append_of_ne_nil] at hc
      · exact ih (n / 10) (by omega) (by omega) c hc
      · exact natDigits_ne_nil (n / 10)

theorem digitsToNat_go_digits (cs : List Char)
    (hcs : ∀ c ∈ cs, isDigitChar c = true) (acc : Nat) :
    digitsToNat.go cs acc =
      some (cs.foldl (fun a c => a * 10 + (c.toNat - 48)) acc) := by
  induction cs generalizing acc with
  | nil => simp [digitsToNat.go]
  | cons c cs ih =>
    have hc : isDigitChar c = true := hcs c (by simp)
    rw [digitsToNat.go, if_pos hc, ih (fun d hd => hcs d (by simp [hd]))]
    simp

theorem digitChar_toNat (d : Nat) (h : d < 10) : (digitChar d).toNat = 48 + d := by
  interval_cases d <;> decide

theorem foldl_natDigits (n : Nat) :
    (natDigits n).foldl (fun a c => a * 10 + (c.toNat - 48)) 0 = n := by
  induction n using Nat.strong_induction_on with
  | _ n ih =>
    by_cases h : n < 10
    · rw [natDigits_lt_ten n h]
      simp [digitChar_toNat n h]
    · rw [natDigits_ge_ten n (by omega), List.foldl_append, ih (n / 10) (by omega)]
      simp [digitChar_toNat (n % 10) (by omega)]
      omega

/-- natDigits is correct: parsing the digits back yields the number. -/
theorem digitsToNat_natDigits (n : Nat) : digitsToNat (natDigits n) = some n := by
  have hne := natDigits_ne_nil n
  rcases hds : natDigits n with _ | ⟨c, cs⟩
  · exact absurd hds hne
  · have : digitsToNat (c :: cs) = digitsToNat.go (c :: cs) 0 := rfl
    rw [this, digitsToNat_go_digits (c :: cs) (by rw [← hds]; exact natDigits_all_digits n) 0]
    rw [← hds, foldl_natDigits]

/-! ## JSON values
JSON.parse / JSON.stringify operate on arbitrary JSON documents, so the
model needs a full JSON value type.  Arrays and objects are represented by
mutually inductive list types to keep all recursion structural (and hence
kernel-reducible).  Numeric literals are kept as the matched decimal text:
the program only ever manipulates integer-valued numbers, and no claim
involves float arithmetic. -/

mutual
inductive Json where
  | null : Json
  | bool (b : Bool) : Json
  | num (lit : String) : Json
  | str (s : String) : Json
  | arr (elems : JsonArr) : Json
  | obj (members : JsonObj) : Json
deriving DecidableEq

inductive JsonArr where
  | nil : JsonArr
  | cons (hd : Json) (tl : JsonArr) : JsonArr
deriving DecidableEq

inductive JsonObj where
  | nil : JsonObj
  | cons (key : String) (val : Json) (tl : JsonObj) : JsonObj
deriving DecidableEq
end

/-- First member of the object with the given key (JS property lookup;
keys produced by our encoder are distinct, so first/last-wins agree). -/
def objGet : JsonObj → String → Option Json
  | .nil, _ => none
  | .cons k v tl, f => if k = f then some v else objGet tl f

/-- Lowercase hexadecimal digit, as emitted by JSON.stringify \u escapes. -/
def hexDigitChar (n : Nat) : Char :=
  if n < 10 then Char.ofNat (48 + n) else Char.ofNat (87 + n)

/-- JSON.stringify quoting of a single character (ECMA-262 QuoteJSONString):
quote and backslash are escaped, the five named control characters use
their short escapes, other control characters use \u00xx, everything else
is emitted verbatim.  (Lone surrogates do not exist in Lean Char.) -/
def escapeChar (c : Char) : List Char :=
  if c = '"' then ['\\', '"']
  else if c = '\\' then ['\\', '\\']
  else if c.toNat = 8 then ['\\', 'b']
  else if c.toNat = 9 then ['\\', 't']
  else if c.toNat = 10 then ['\\', 'n']
  else if c.toNat = 12 then ['\\', 'f']
  else if c.toNat = 13 then ['\\', 'r']
  else if c.toNat < 32 then
    ['\\', 'u', '0', '0', hexDigitChar (c.toNat / 16), hexDigitChar (c.toNat % 16)]
  else [c]

def escapeList : List Char → List Char
  | [] => []
  | c :: cs => escapeChar c ++ escapeList cs

/-- A JSON string literal: quotes around the escaped body. -/
def quoteJson (s : List Char) : List Char := '"' :: (escapeList s ++ ['"'])

mutual
/-- JSON.stringify on a JSON value (compact form, no added whitespace). -/
def stringifyJson : Json → List Char
  | .null => "null".data
  | .bool true => "true".data
  | .bool false => "false".data
  | .num lit => lit.data
  | .str s => quoteJson s.data
  | .arr xs => '[' :: (stringifyArr xs ++ [']'])
  | .obj ms => '{' :: (stringifyObj ms ++ ['}'])

def stringifyArr : JsonArr → List Char
  | .nil => []
  | .cons x .nil => stringifyJson x
  | .cons x (.cons y tl) => stringifyJson x ++ ',' :: stringifyArr (.cons y tl)

def stringifyObj : JsonObj → List Char
  | .nil => []
  | .cons k v .nil => quoteJson k.data ++ ':' :: stringifyJson v
  | .cons k v (.cons k' v' tl) =>
    quoteJson k.data ++ ':' :: stringifyJson v ++ ',' :: stringifyObj (.cons k' v' tl)
end

/-- Optional member: JSON.stringify omits a property whose value is
undefined, which is how an absent optional field is encoded. -/
def optMember (k : String) : Option String → JsonObj → JsonObj
  | none, tl => tl
  | some s, tl => .cons k (.str s) tl

/-- The JS object literal passed to JSON.stringify by encodeIntention:
property order what, when, where, note, createdAt; absent optionals are
omitted entirely. -/
def jsonOfIntention (i : IntentionData) : Json :=
  .obj (.cons "what" (.str i.what)
    (.cons "when" (.str i.when)
      (optMember "where" i.where'
        (optMember "note" i.note
          (.cons "createdAt" (.num (String.mk (natDigits i.createdAt))) .nil)))))

/-- Reading the record fields back out of a decoded JSON value, as the
consuming pages do after the unchecked cast; none when a required field is
missing or has the wrong shape. -/
def intentionFromJson : Json → Option IntentionData
  | .obj ms =>
    match objGet ms "what", objGet ms "when", objGet ms "createdAt" with
    | some (.str whatV), some (.str whenV), some (.num lit) =>
      match digitsToNat lit.data with
      | some created =>
        some { what := whatV, when := whenV,
               where' := match objGet ms "where" with
                         | some (.str s) => some s
                         | _ => none,
               note := match objGet ms "note" with
                       | some (.str s) => some s
                       | _ => none,
               createdAt := created }
      | none => none
    | _, _, _ => none
  | _ => none

/-- The stats object { interested: a, here: b } as a JSON value. -/
def statsJson (a b : Nat) : Json :=
  .obj (.cons "interested" (.num (String.mk (natDigits a)))
    (.cons "here" (.num (String.mk (natDigits b))) .nil))

/-- Reading an InteractionStats record out of a JSON value; none when the
value is not a two-counter object of the expected shape. -/
def statsFromJson : Json → Option IntentionStats
  | .obj ms =>
    match objGet ms "interested", objGet ms "here" with
    | some (.num la), some (.num lb) =>
      match digitsToNat la.data, digitsToNat lb.data with
      | some a, some b => some { interested := a, here := b }
      | _, _ => none
    | _, _ => none
  | _ => none

/-! ## JSON parsing
A faithful model of JSON.parse over the character list: the same grammar
(RFC 8259 / ECMA-262), with the whole input required to be one value plus
whitespace.  Recursion through nested values is driven by a fuel counter
(one unit per parsing step), keeping every definition structurally
recursive and hence evaluable inside the kernel.  JSON.parse returns the
parsed document or throws; here it returns Option. -/

/-- JSON insignificant whitespace: space, tab, line feed, carriage return. -/
def isJsonWs (c : Char) : Bool :=
  c = ' ' || c.toNat = 9 || c.toNat = 10 || c.toNat = 13

def skipWs : List Char → List Char
  | [] => []
  | c :: cs => if isJsonWs c then skipWs cs else c :: cs

def parseHexDigit (c : Char) : Option Nat :=
  if 48 ≤ c.toNat ∧ c.toNat ≤ 57 then some (c.toNat - 48)
  else if 97 ≤ c.toNat ∧ c.toNat ≤ 102 then some (c.toNat - 87)
  else if 65 ≤ c.toNat ∧ c.toNat ≤ 70 then some (c.toNat - 55)
  else none

/-- U+FFFD, standing in for unpaired surrogates, which a Lean Char cannot
hold (JSON.parse accepts them into a JS string; no claim depends on it). -/
def fffdChar : Char := Char.ofNat 0xFFFD

/-- Parse the four hex digits after a \u escape, combining a high
surrogate with an immediately following \u low surrogate. -/
def parseUEscape : List Char → Option (Char × List Char)
  | h1 :: h2 :: h3 :: h4 :: rest =>
    match parseHexDigit h1, parseHexDigit h2, parseHexDigit h3, parseHexDigit h4 with
    | some v1, some v2, some v3, some v4 =>
      let n := v1 * 4096 + v2 * 256 + v3 * 16 + v4
      if 0xD800 ≤ n ∧ n < 0xDC00 then
        match rest with
        | '\\' :: 'u' :: g1 :: g2 :: g3 :: g4 :: rest2 =>
          match parseHexDigit g1, parseHexDigit g2, parseHexDigit g3, parseHexDigit g4 with
          | some w1, some w2, some w3, some w4 =>
            let m := w1 * 4096 + w2 * 256 + w3 * 16 + w4
            if 0xDC00 ≤ m ∧ m < 0xE000 then
              some (Char.ofNat (0x10000 + (n - 0xD800) * 1024 + (m - 0xDC00)), rest2)
            else some (fffdChar, rest)
          | _, _, _, _ => some (fffdChar, rest)
        | _ => some (fffdChar, rest)
      else if 0xDC00 ≤ n ∧ n < 0xE000 then some (fffdChar, rest)
      else some (Char.ofNat n, rest)
    | _, _, _, _ => none
  | _ => none

/-- One escape sequence after a backslash: the named single-character
escapes and the \u form. -/
def parseEscape : List Char → Option (Char × List Char)
  | '"' :: r => some ('"', r)
  | '\\' :: r => some ('\\', r)
  | '/' :: r => some ('/', r)
  | 'b' :: r => some (Char.ofNat 8, r)
  | 'f' :: r => some (Char.ofNat 12, r)
  | 'n' :: r => some (Char.ofNat 10, r)
  | 'r' :: r => some (Char.ofNat 13, r)
  | 't' :: r => some (Char.ofNat 9, r)
  | 'u' :: r => parseUEscape r
  | _ => none

/-- Body of a JSON string literal (after the opening quote), up to and
consuming the closing quote.  Fuel decreases once per character produced,
so input length + 1 is always sufficient. -/
def parseJStrBody : Nat → List Char → Option (List Char × List Char)
  | 0, _ => none
  | _ + 1, [] => none
  | fuel + 1, c :: cs =>
    if c = '"' then some ([], cs)
    else if c = '\\' then
      match parseEscape cs with
      | some (e, r) => consFst e (parseJStrBody fuel r)
      | none => none
    else if c.toNat < 32 then none
    else consFst c (parseJStrBody fuel cs)
where consFst (c : Char) : Option (List Char × List Char) → Option (List Char × List Char)
  | some (s, r) => some (c :: s, r)
  | none => none

/-- Longest digit run at the front. -/
def takeDigits : List Char → List Char × List Char
  | [] => ([], [])
  | c :: cs =>
    if isDigitChar c then
      match takeDigits cs with
      | (ds, r) => (c :: ds, r)
    else ([], c :: cs)

/-- JSON integer part: 0, or a nonzero digit followed by digits. -/
def parseIntPart : List Char → Option (List Char × List Char)
  | [] => none
  | c :: r =>
    if c = '0' then some (['0'], r)
    else if isDigitChar c then
      match takeDigits r with
      | (ds, r2) => some (c :: ds, r2)
    else none

/-- JSON fraction part, possibly empty. -/
def parseFrac : List Char → Option (List Char × List Char)
  | [] => some ([], [])
  | c :: r =>
    if c = '.' then
      match takeDigits r with
      | ([], _) => none
      | (ds, r2) => some ('.' :: ds, r2)
    else some ([], c :: r)

/-- JSON exponent part, possibly empty. -/
def parseExp : List Char → Option (List Char × List Char)
  | [] => some ([], [])
  | c :: r =>
    if c = 'e' ∨ c = 'E' then
      match r with
      | [] => none
      | s :: r2 =>
        if s = '+' ∨ s = '-' then
          match takeDigits r2 with
          | ([], _) => none
          | (ds, r3) => some (c :: s :: ds, r3)
        else
          match takeDigits r with
          | ([], _) => none
          | (ds, r3) => some (c :: ds, r3)
    else some ([], c :: r)

/-- A JSON number token; the matched text is kept as the literal. -/
def parseSign : List Char → List Char × List Char
  | [] => ([], [])
  | c :: r => if c = '-' then (['-'], r) else ([], c :: r)

def parseNumber (cs : List Char) : Option (List Char × List Char) :=
  let signed := parseSign cs
  match parseIntPart signed.2 with
  | none => none
  | some (ip, r1) =>
    match parseFrac r1 with
    | none => none
    | some (fp, r2) =>
      match parseExp r2 with
      | none => none
      | some (ep, r3) => some (signed.1 ++ ip ++ fp ++ ep, r3)

mutual
/-- One JSON value, leading whitespace allowed, returning the rest. -/
def parseVal : Nat → List Char → Option (Json × List Char)
  | 0, _ => none
  | fuel + 1, cs =>
    match skipWs cs with
    | [] => none
    | c :: rest =>
      if c = '{' then
        match skipWs rest with
        | [] => none
        | c2 :: r2 =>
          if c2 = '}' then some (.obj .nil, r2)
          else
            match parseMembers fuel (c2 :: r2) with
            | some (ms, r) => some (.obj ms, r)
            | none => none
      else if c = '[' then
        match skipWs rest with
        | [] => none
        | c2 :: r2 =>
          if c2 = ']' then some (.arr .nil, r2)
          else
            match parseElems fuel (c2 :: r2) with
            | some (xs, r) => some (.arr xs, r)
            | none => none
      else if c = '"' then
        match parseJStrBody (rest.length + 1) rest with
        | some (s, r) => some (.str (String.mk s), r)
        | none => none
      else if c = 't' then
        match rest with
        | 'r' :: 'u' :: 'e' :: r => some (.bool true, r)
        | _ => none
      else if c = 'f' then
        match rest with
        | 'a' :: 'l' :: 's' :: 'e' :: r => some (.bool false, r)
        | _ => none
      else if c = 'n' then
        match rest with
        | 'u' :: 'l' :: 'l' :: r => some (.null, r)
        | _ => none
      else
        match parseNumber (c :: rest) with
        | some (lit, r) => some (.num (String.mk lit), r)
        | none => none

/-- Members of an object, after the opening brace of a nonempty object,
consuming the closing brace. -/
def parseMembers : Nat → List Char → Option (JsonObj × List Char)
  | 0, _ => none
  | fuel + 1, cs =>
    match skipWs cs with
    | [] => none
    | c :: rest =>
      if c = '"' then
        match parseJStrBody (rest.length + 1) rest with
        | some (k, r1) =>
          (match skipWs r1 with
           | [] => none
           | c2 :: r2 =>
             if c2 = ':' then
               match parseVal fuel r2 with
               | some (v, r3) =>
                 (match skipWs r3 with
                  | [] => none
                  | c3 :: r4 =>
                    if c3 = ',' then
                      match parseMembers fuel r4 with
                      | some (ms, r5) => some (.cons (String.mk k) v ms, r5)
                      | none => none
                    else if c3 = '}' then some (.cons (String.mk k) v .nil, r4)
                    else none)
               | none => none
             else none)
        | none => none
      else none

/-- Elements of an array, after the opening bracket of a nonempty array,
consuming the closing bracket. -/
def parseElems : Nat → List Char → Option (JsonArr × List Char)
  | 0, _ => none
  | fuel + 1, cs =>
    match parseVal fuel cs with
    | some (v, r1) =>
      (match skipWs r1 with
       | [] => none
       | c :: r2 =>
         if c = ',' then
           match parseElems fuel r2 with
           | some (xs, r3) => some (.cons v xs, r3)
           | none => none
         else if c = ']' then some (.cons v .nil, r2)
         else none)
    | none => none
end

/-- JSON.parse: one value spanning the whole text (trailing whitespace
allowed); none models a thrown SyntaxError. -/
def jsonParse (cs : List Char) : Option Json :=
  match parseVal (cs.length + 1) cs with
  | some (v, r) => if skipWs r = [] then some v else none
  | none => none

example : jsonParse "null".data = some Json.null := by decide
example : jsonParse ('{' :: '"' :: 'a' :: '"' :: ':' :: '1' :: ',' ::
    '"' :: 'b' :: '"' :: ':' :: '[' :: 't' :: 'r' :: 'u' :: 'e' :: ']' :: '}' :: []) =
    some (.obj (.cons "a" (.num "1") (.cons "b"
      (.arr (.cons (.bool true) .nil)) .nil))) := by decide
example : jsonParse "01".data = none := by decide
example : jsonParse "".data = none := by decide
example : jsonParse " 5 ".data = some (.num "5") := by decide

/-! ## UTF-8
Buffer.from(string) encodes UTF-8; Buffer.toString() decodes it, replacing
invalid sequences with U+FFFD rather than failing (WHATWG decoding).
Bytes are Nat values below 256. -/

theorem char_valid_toNat (c : Char) : Nat.isValidChar c.toNat := c.valid

theorem toNat_charOfNat (n : Nat) (h : n.isValidChar) : (Char.ofNat n).toNat = n := by
  simp [Char.ofNat, h, Char.ofNatAux, Char.toNat, UInt32.toNat, UInt32.ofNat']

theorem charOfNat_toNat (c : Char) : Char.ofNat c.toNat = c := by
  apply Char.ext
  have h : Nat.isValidChar c.toNat := c.valid
  simp [Char.ofNat, h, Char.ofNatAux, UInt32.ofNat']
  apply UInt32.ext
  simp [UInt32.toNat, Char.toNat]

theorem char_eq_iff_toNat (c d : Char) : c = d ↔ c.toNat = d.toNat := by
  constructor
  · intro h; rw [h]
  · intro h; rw [← charOfNat_toNat c, ← charOfNat_toNat d, h]

/-- UTF-8 bytes of one scalar value. -/
def utf8EncodeChar (c : Char) : List Nat :=
  if c.toNat < 0x80 then [c.toNat]
  else if c.toNat < 0x800 then [0xC0 + c.toNat / 64, 0x80 + c.toNat % 64]
  else if c.toNat < 0x10000 then
    [0xE0 + c.toNat / 4096, 0x80 + c.toNat / 64 % 64, 0x80 + c.toNat % 64]
  else
    [0xF0 + c.toNat / 262144, 0x80 + c.toNat / 4096 % 64,
     0x80 + c.toNat / 64 % 64, 0x80 + c.toNat % 64]

def utf8Encode : List Char → List Nat
  | [] => []
  | c :: cs => utf8EncodeChar c ++ utf8Encode cs

/-- Forgiving UTF-8 decoding loop; fuel decreases once per produced
character, so the byte count is always sufficient fuel.  Overlong forms,
surrogate encodings, out-of-range leads and truncated sequences produce
U+FFFD and resynchronise. -/
def utf8DecodeGo : Nat → List Nat → List Char
  | 0, _ => []
  | _ + 1, [] => []
  | fuel + 1, b1 :: bs =>
    if b1 < 0x80 then Char.ofNat b1 :: utf8DecodeGo fuel bs
    else if b1 < 0xC2 then fffdChar :: utf8DecodeGo fuel bs
    else if b1 < 0xE0 then
      match bs with
      | [] => fffdChar :: utf8DecodeGo fuel []
      | b2 :: bs2 =>
        if 0x80 ≤ b2 ∧ b2 < 0xC0 then
          Char.ofNat ((b1 - 0xC0) * 64 + (b2 - 0x80)) :: utf8DecodeGo fuel bs2
        else fffdChar :: utf8DecodeGo fuel bs
    else if b1 < 0xF0 then
      match bs with
      | [] => fffdChar :: utf8DecodeGo fuel []
      | b2 :: bs2 =>
        if 0x80 ≤ b2 ∧ b2 < 0xC0 ∧ (b1 = 0xE0 → 0xA0 ≤ b2) ∧ (b1 = 0xED → b2 < 0xA0) then
          match bs2 with
          | [] => fffdChar :: utf8DecodeGo fuel []
          | b3 :: bs3 =>
            if 0x80 ≤ b3 ∧ b3 < 0xC0 then
              Char.ofNat ((b1 - 0xE0) * 4096 + (b2 - 0x80) * 64 + (b3 - 0x80)) ::
                utf8DecodeGo fuel bs3
            else fffdChar :: utf8DecodeGo fuel bs2
        else fffdChar :: utf8DecodeGo fuel bs
    else if b1 < 0xF5 then
      match bs with
      | [] => fffdChar :: utf8DecodeGo fuel []
      | b2 :: bs2 =>
        if 0x80 ≤ b2 ∧ b2 < 0xC0 ∧ (b1 = 0xF0 → 0x90 ≤ b2) ∧ (b1 = 0xF4 → b2 < 0x90) then
          match bs2 with
          | [] => fffdChar :: utf8DecodeGo fuel []
          | b3 :: bs3 =>
            if 0x80 ≤ b3 ∧ b3 < 0xC0 then
              match bs3 with
              | [] => fffdChar :: utf8DecodeGo fuel []
              | b4 :: bs4 =>
                if 0x80 ≤ b4 ∧ b4 < 0xC0 then
                  Char.ofNat ((b1 - 0xF0) * 262144 + (b2 - 0x80) * 4096 +
                    (b3 - 0x80) * 64 + (b4 - 0x80)) :: utf8DecodeGo fuel bs4
                else fffdChar :: utf8DecodeGo fuel bs3
            else fffdChar :: utf8DecodeGo fuel bs2
        else fffdChar :: utf8DecodeGo fuel bs
    else fffdChar :: utf8DecodeGo fuel bs

def utf8Decode (bs : List Nat) : List Char := utf8DecodeGo bs.length bs

theorem utf8DecodeGo_nil (fuel : Nat) : utf8DecodeGo fuel [] = [] := by
  cases fuel <;> rfl

theorem utf8EncodeChar_byte_lt (c : Char) : ∀ b ∈ utf8EncodeChar c, b < 256 := by
  have hv : Nat.isValidChar c.toNat := c.valid
  have hlt : c.toNat < 0x110000 := by
    rcases hv with h | ⟨_, h⟩ <;> omega
  unfold utf8EncodeChar
  split
  · intro b hb; simp at hb; omega
  · split
    · intro b hb; simp at hb; rcases hb with hb | hb <;> omega
    · split
      · intro b hb; simp at hb; rcases hb with hb | hb | hb <;> omega
      · intro b hb; simp at hb; rcases hb with hb | hb | hb | hb <;> omega

theorem utf8Encode_byte_lt (s : List Char) : ∀ b ∈ utf8Encode s, b < 256 := by
  induction s with
  | nil => simp [utf8Encode]
  | cons c cs ih =>
    intro b hb
    rw [utf8Encode] at hb
    rcases List.mem_append.mp hb with h | h
    · exact utf8EncodeChar_byte_lt c b h
    · exact ih b h

theorem utf8EncodeChar_length_pos (c : Char) : 1 ≤ (utf8EncodeChar c).length := by
  unfold utf8EncodeChar
  split
  · simp
  · split
    · simp
    · split <;> simp

theorem length_le_utf8Encode (s : List Char) : s.length ≤ (utf8Encode s).length := by
  induction s with
  | nil => simp [utf8Encode]
  | cons c cs ih =>
    rw [utf8Encode]
    simp only [List.length_append, List.length_cons]
    have := utf8EncodeChar_length_pos c
    omega

/-- Decoding one encoded scalar consumes exactly its bytes. -/
theorem utf8DecodeGo_encodeChar (fuel : Nat) (c : Char) (bs : List Nat) :
    utf8DecodeGo (fuel + 1) (utf8EncodeChar c ++ bs) = c :: utf8DecodeGo fuel bs := by
  have hv : Nat.isValidChar c.toNat := c.valid
  have hv' : c.toNat < 0xD800 ∨ (0xDFFF < c.toNat ∧ c.toNat < 0x110000) := hv
  set v := c.toNat with hvdef
  unfold utf8EncodeChar
  rw [← hvdef]
  by_cases h1 : v < 0x80
  · rw [if_pos h1]
    show utf8DecodeGo (fuel + 1) (v :: bs) = _
    rw [utf8DecodeGo.eq_def]
    dsimp only
    rw [if_pos h1, hvdef, charOfNat_toNat]
  · rw [if_neg h1]
    by_cases h2 : v < 0x800
    · rw [if_pos h2]
      show utf8DecodeGo (fuel + 1) ((0xC0 + v / 64) :: (0x80 + v % 64) :: bs) = _
      rw [utf8DecodeGo.eq_def]
      dsimp only
      rw [if_neg (by omega), if_neg (by omega), if_pos (by omega), if_pos (by omega)]
      have hval : (0xC0 + v / 64 - 0xC0) * 64 + (0x80 + v % 64 - 0x80) = v := by omega
      rw [hval, hvdef, charOfNat_toNat]
    · rw [if_neg h2]
      by_cases h3 : v < 0x10000
      · rw [if_pos h3]
        show utf8DecodeGo (fuel + 1)
          ((0xE0 + v / 4096) :: (0x80 + v / 64 % 64) :: (0x80 + v % 64) :: bs) = _
        rw [utf8DecodeGo.eq_def]
        dsimp only
        rw [if_neg (by omega), if_neg (by omega), if_neg (by omega),
          if_pos (by omega), if_pos (by omega), if_pos (by omega)]
        have hval : (0xE0 + v / 4096 - 0xE0) * 4096 + (0x80 + v / 64 % 64 - 0x80) * 64 +
            (0x80 + v % 64 - 0x80) = v := by omega
        rw [hval, hvdef, charOfNat_toNat]
      · rw [if_neg h3]
        show utf8DecodeGo (fuel + 1)
          ((0xF0 + v / 262144) :: (0x80 + v / 4096 % 64) :: (0x80 + v / 64 % 64) ::
            (0x80 + v % 64) :: bs) = _
        have hlt : v < 0x110000 := by omega
        rw [utf8DecodeGo.eq_def]
        dsimp only
        rw [if_neg (by omega), if_neg (by omega), if_neg (by omega), if_neg (by omega),
          if_pos (by omega), if_pos (by omega), if_pos (by omega), if_pos (by omega)]
        have hval : (0xF0 + v / 262144 - 0xF0) * 262144 + (0x80 + v / 4096 % 64 - 0x80) * 4096 +
            (0x80 + v / 64 % 64 - 0x80) * 64 + (0x80 + v % 64 - 0x80) = v := by omega
        rw [hval, hvdef, charOfNat_toNat]

theorem utf8DecodeGo_encode (s : List Char) (fuel : Nat) (rest : List Nat) :
    utf8DecodeGo (s.length + fuel) (utf8Encode s ++ rest) = s ++ utf8DecodeGo fuel rest := by
  induction s generalizing fuel with
  | nil => simp [utf8Encode]
  | cons c cs ih =>
    rw [utf8Encode, List.append_assoc]
    have hlen : (c :: cs).length + fuel = (cs.length + fuel) + 1 := by simp; omega
    rw [hlen, utf8DecodeGo_encodeChar (cs.length + fuel) c (utf8Encode cs ++ rest), ih fuel]
    simp

/-- UTF-8 round trip: decoding an encoded string gives it back. -/
theorem utf8Decode_encode (s : List Char) : utf8Decode (utf8Encode s) = s := by
  unfold utf8Decode
  have hge := length_le_utf8Encode s
  have h := utf8DecodeGo_encode s ((utf8Encode s).length - s.length) []
  rw [List.append_nil, utf8DecodeGo_nil, List.append_nil] at h
  rw [show (utf8Encode s).length = s.length + ((utf8Encode s).length - s.length) from by omega]
  exact h

/-! ## Base64
Buffer.toString('base64') produces standard-alphabet base64 with padding;
Buffer.from(s, 'base64') decodes forgivingly: characters outside the
alphabet (padding included) are skipped, and a trailing group of 2 or 3
sextets still yields its complete bytes. -/

/-- Standard base64 alphabet character of a 6-bit value. -/
def b64Char (v : Nat) : Char :=
  if v < 26 then Char.ofNat (65 + v)
  else if v < 52 then Char.ofNat (71 + v)
  else if v < 62 then Char.ofNat (v - 4)
  else if v = 62 then '+'
  else '/'

/-- 6-bit value of an alphabet character; none outside the alphabet. -/
def b64Val (c : Char) : Option Nat :=
  if 65 ≤ c.toNat ∧ c.toNat ≤ 90 then some (c.toNat - 65)
  else if 97 ≤ c.toNat ∧ c.toNat ≤ 122 then some (c.toNat - 71)
  else if 48 ≤ c.toNat ∧ c.toNat ≤ 57 then some (c.toNat + 4)
  else if c = '+' then some 62
  else if c = '/' then some 63
  else none

/-- Base64 encoding with padding, 3 bytes to 4 characters. -/
def base64Encode : List Nat → List Char
  | [] => []
  | [b1] => [b64Char (b1 / 4), b64Char (b1 % 4 * 16), '=', '=']
  | [b1, b2] =>
    [b64Char (b1 / 4), b64Char (b1 % 4 * 16 + b2 / 16), b64Char (b2 % 16 * 4), '=']
  | b1 :: b2 :: b3 :: bs =>
    b64Char (b1 / 4) :: b64Char (b1 % 4 * 16 + b2 / 16) ::
      b64Char (b2 % 16 * 4 + b3 / 64) :: b64Char (b3 % 64) :: base64Encode bs

/-- Bytes from a sextet stream; a trailing 2- or 3-sextet group produces
its 1 or 2 complete bytes, a lone trailing sextet is dropped. -/
def b64DecodeCore : List Nat → List Nat
  | v1 :: v2 :: v3 :: v4 :: vs =>
    (v1 * 4 + v2 / 16) :: (v2 % 16 * 16 + v3 / 4) :: (v3 % 4 * 64 + v4) :: b64DecodeCore vs
  | [v1, v2, v3] => [v1 * 4 + v2 / 16, v2 % 16 * 16 + v3 / 4]
  | [v1, v2] => [v1 * 4 + v2 / 16]
  | _ => []

/-- Forgiving base64 decoding: map characters to sextets, skipping
everything outside the alphabet. -/
def base64Decode (cs : List Char) : List Nat := b64DecodeCore (cs.filterMap b64Val)

theorem b64Val_b64Char : ∀ v, v < 64 → b64Val (b64Char v) = some v := by decide

theorem b64Val_pad : b64Val '=' = none := by decide

theorem b64Char_ne_pad : ∀ v, v < 64 → b64Char v ≠ '=' := by decide

/-- Every character emitted by the encoder is an alphabet character or '='. -/
theorem base64Encode_mem : ∀ (bytes : List Nat), (∀ b ∈ bytes, b < 256) →
    ∀ c ∈ base64Encode bytes, (∃ v, v < 64 ∧ c = b64Char v) ∨ c = '='
  | [], _ => by simp [base64Encode]
  | [b1], h => by
    intro c hc
    have hb1 : b1 < 256 := h b1 (by simp)
    rw [base64Encode] at hc
    simp at hc
    rcases hc with hc | hc | hc
    · exact Or.inl ⟨b1 / 4, by omega, hc⟩
    · exact Or.inl ⟨b1 % 4 * 16, by omega, hc⟩
    · exact Or.inr hc
  | [b1, b2], h => by
    intro c hc
    have hb1 : b1 < 256 := h b1 (by simp)
    have hb2 : b2 < 256 := h b2 (by simp)
    rw [base64Encode] at hc
    simp at hc
    rcases hc with hc | hc | hc | hc
    · exact Or.inl ⟨b1 / 4, by omega, hc⟩
    · exact Or.inl ⟨b1 % 4 * 16 + b2 / 16, by omega, hc⟩
    · exact Or.inl ⟨b2 % 16 * 4, by omega, hc⟩
    · exact Or.inr hc
  | b1 :: b2 :: b3 :: bs, h => by
    intro c hc
    have hb1 : b1 < 256 := h b1 (by simp)
    have hb2 : b2 < 256 := h b2 (by simp)
    have hb3 : b3 < 256 := h b3 (by simp)
    rw [base64Encode] at hc
    rcases List.mem_cons.mp hc with hc | hc
    · exact Or.inl ⟨b1 / 4, by omega, hc⟩
    · rcases List.mem_cons.mp hc with hc | hc
      · exact Or.inl ⟨b1 % 4 * 16 + b2 / 16, by omega, hc⟩
      · rcases List.mem_cons.mp hc with hc | hc
        · exact Or.inl ⟨b2 % 16 * 4 + b3 / 64, by omega, hc⟩
        · rcases List.mem_cons.mp hc with hc | hc
          · exact Or.inl ⟨b3 % 64, by omega, hc⟩
          · exact base64Encode_mem bs (fun b hb => h b (by simp [hb])) c hc

/-- Decoding inverts encoding on byte lists. -/
theorem b64_roundtrip : ∀ (bytes : List Nat), (∀ b ∈ bytes, b < 256) →
    b64DecodeCore ((base64Encode bytes).filterMap b64Val) = bytes
  | [], _ => by simp [base64Encode, b64DecodeCore]
  | [b1], h => by
    have hb1 : b1 < 256 := h b1 (by simp)
    rw [base64Encode]
    simp only [List.filterMap_cons, b64Val_b64Char (b1 / 4) (by omega),
      b64Val_b64Char (b1 % 4 * 16) (by omega), b64Val_pad]
    rw [List.filterMap_nil, b64DecodeCore]
    have : b1 / 4 * 4 + b1 % 4 * 16 / 16 = b1 := by omega
    rw [this]
  | [b1, b2], h => by
    have hb1 : b1 < 256 := h b1 (by simp)
    have hb2 : b2 < 256 := h b2 (by simp)
    rw [base64Encode]
    simp only [List.filterMap_cons, b64Val_b64Char (b1 / 4) (by omega),
      b64Val_b64Char (b1 % 4 * 16 + b2 / 16) (by omega),
      b64Val_b64Char (b2 % 16 * 4) (by omega), b64Val_pad]
    rw [List.filterMap_nil, b64DecodeCore]
    have h1 : b1 / 4 * 4 + (b1 % 4 * 16 + b2 / 16) / 16 = b1 := by omega
    have h2 : (b1 % 4 * 16 + b2 / 16) % 16 * 16 + b2 % 16 * 4 / 4 = b2 := by omega
    rw [h1, h2]
  | b1 :: b2 :: b3 :: bs, h => by
    have hb1 : b1 < 256 := h b1 (by simp)
    have hb2 : b2 < 256 := h b2 (by simp)
    have hb3 : b3 < 256 := h b3 (by simp)
    rw [base64Encode]
    simp only [List.filterMap_cons, b64Val_b64Char (b1 / 4) (by omega),
      b64Val_b64Char (b1 % 4 * 16 + b2 / 16) (by omega),
      b64Val_b64Char (b2 % 16 * 4 + b3 / 64) (by omega),
      b64Val_b64Char (b3 % 64) (by omega)]
    rw [b64DecodeCore, b64_roundtrip bs (fun b hb => h b (by simp [hb]))]
    have h1 : b1 / 4 * 4 + (b1 % 4 * 16 + b2 / 16) / 16 = b1 := by omega
    have h2 : (b1 % 4 * 16 + b2 / 16) % 16 * 16 + (b2 % 16 * 4 + b3 / 64) / 4 = b2 := by omega
    have h3 : (b2 % 16 * 4 + b3 / 64) % 4 * 64 + b3 % 64 = b3 := by omega
    rw [h1, h2, h3]

/-! ## The source operations (src/unnamed/part_000) -/

/-- The global replacement of plus by dash, applied characterwise. -/
def repPlus (c : Char) : Char := if c = '+' then '-' else c

/-- The global replacement of slash by underscore, applied characterwise. -/
def repSlash (c : Char) : Char := if c = '/' then '_' else c

/-- The global replacement of dash by plus, applied characterwise. -/
def repDash (c : Char) : Char := if c = '-' then '+' else c

/-- The global replacement of underscore by slash, applied characterwise. -/
def repUnderscore (c : Char) : Char := if c = '_' then '/' else c

/-- The three-step cleanup in encodeIntention: '+' to '-', '/' to '_',
then delete every '='. -/
def toUrlSafe (cs : List Char) : List Char :=
  ((cs.map repPlus).map repSlash).filter (fun c => c ≠ '=')

/-- The reverse remap at the start of decodeIntention. -/
def fromUrlSafe (cs : List Char) : List Char := (cs.map repDash).map repUnderscore

/-- String.prototype.padEnd: append the fill character up to the target
length (no-op when already long enough). -/
def padEndChar (cs : List Char) (target : Nat) (c : Char) : List Char :=
  cs ++ List.replicate (target - cs.length) c

/-- encodeIntention: JSON.stringify the record, UTF-8 it, base64 it, and
remap to the URL-safe alphabet. -/
def encodeIntention (i : IntentionData) : String :=
  String.mk (toUrlSafe (base64Encode (utf8Encode (stringifyJson (jsonOfIntention i)))))

instance : DecidableEq (Except String Json) := fun x y =>
  match x, y with
  | .error a, .error b =>
    if h : a = b then isTrue (by rw [h]) else isFalse (by intro hh; cases hh; exact h rfl)
  | .ok a, .ok b =>
    if h : a = b then isTrue (by rw [h]) else isFalse (by intro hh; cases hh; exact h rfl)
  | .error _, .ok _ => isFalse (by intro hh; cases hh)
  | .ok _, .error _ => isFalse (by intro hh; cases hh)

/-- The single error message thrown by decodeIntention. -/
def decodeErrMsg : String := "Failed to decode intention data"

/-- The text obtained inside decodeIntention before JSON.parse: reverse
remap, pad with '=' to a multiple of four of the original length, base64
decode, UTF-8 decode. -/
def decodedText (payload : String) : List Char :=
  utf8Decode (base64Decode (padEndChar (fromUrlSafe payload.data)
    (payload.data.length + (4 - payload.data.length % 4) % 4) '='))

/-- decodeIntention: an empty decoded text is rejected, then the entire
JSON.parse result is returned with no structural validation (the source
casts it to IntentionData). -/
def decodeIntention (payload : String) : Except String Json :=
  if decodedText payload = [] then .error decodeErrMsg
  else
    match jsonParse (decodedText payload) with
    | some v => .ok v
    | none => .error decodeErrMsg

/-- Token alphabet of the spec: A-Z, a-z, 0-9, underscore, dash. -/
def isUrlSafeChar (c : Char) : Bool :=
  (65 ≤ c.toNat && c.toNat ≤ 90) || (97 ≤ c.toNat && c.toNat ≤ 122) ||
  (48 ≤ c.toNat && c.toNat ≤ 57) || c = '_' || c = '-'

/-- 2 * 60 * 60 * 1000, the expiry window of isIntentionExpired. -/
def twoHoursInMs : Int := 2 * 60 * 60 * 1000

/-- 60 * 60 * 1000, the coarsening threshold of getLocationPrecision. -/
def oneHourInMs : Int := 60 * 60 * 1000

/-- isIntentionExpired, with the platform date parser passed explicitly
(none models a NaN timestamp from an unparseable date string, for which
the JS comparison NaN > x is false). -/
def isIntentionExpired (dateParse : String → Option Int) (i : IntentionData)
    (now : Int) : Bool :=
  match dateParse i.when with
  | some eventTime => decide (now > eventTime + twoHoursInMs)
  | none => false

/-- 'a,b,c'.split(','). -/
def splitOnComma : List Char → List (List Char)
  | [] => [[]]
  | c :: cs =>
    if c = ',' then [] :: splitOnComma cs
    else
      match splitOnComma cs with
      | [] => [[c]]
      | p :: ps => (c :: p) :: ps

/-- Array.prototype.join(','). -/
def joinComma : List (List Char) → List Char
  | [] => []
  | [p] => p
  | p :: q :: ps => p ++ ',' :: joinComma (q :: ps)

/-- The WhiteSpace / LineTerminator set removed by String.prototype.trim. -/
def isJsTrimWs (c : Char) : Bool :=
  (9 ≤ c.toNat && c.toNat ≤ 13) || c.toNat = 32 || c.toNat = 160 ||
  c.toNat = 0x1680 || (0x2000 ≤ c.toNat && c.toNat ≤ 0x200A) ||
  c.toNat = 0x2028 || c.toNat = 0x2029 || c.toNat = 0x202F ||
  c.toNat = 0x205F || c.toNat = 0x3000 || c.toNat = 0xFEFF

/-- String.prototype.trim: whitespace stripped from both ends. -/
def trimChars (cs : List Char) : List Char :=
  ((cs.dropWhile isJsTrimWs).reverse.dropWhile isJsTrimWs).reverse

/-- getLocationPrecision: empty for an absent (or falsy empty) place;
coarsened to the last two comma segments when the event is more than one
hour away and the place has at least two segments; the full place
otherwise.  An unparseable date gives NaN, and NaN - now > oneHour is
false, selecting the full-place branch. -/
def getLocationPrecision (dateParse : String → Option Int) (i : IntentionData)
    (now : Int) : String :=
  match i.where' with
  | none => ""
  | some w =>
    if w = "" then ""
    else
      let farAway : Bool :=
        match dateParse i.when with
        | some eventTime => decide (eventTime - now > oneHourInMs)
        | none => false
      if farAway then
        let parts := splitOnComma w.data
        if parts.length > 1 then
          String.mk (trimChars (joinComma (parts.drop (parts.length - 2))))
        else w
      else w

/-- The injected key-value store (localStorage): key to optional value. -/
abbrev Store := String → Option String

/-- localStorage.setItem. -/
def setStore (store : Store) (k v : String) : Store :=
  fun q => if q = k then some v else store q

/-- getStorageKey: fixed literal prefix ++ token. -/
def getStorageKey (payload : String) : String := "ambient_stats_" ++ payload

/-- getIntentionStats.  hasWindow false models the typeof window ===
'undefined' branch.  An absent or empty stored value and a JSON.parse
failure give the zero default; a successfully parsed value is returned
as-is, with no check that it is InteractionStats-shaped (the source casts
the JSON.parse result). -/
def getIntentionStats (hasWindow : Bool) (store : Store) (payload : String) : Json :=
  if hasWindow = false then statsJson 0 0
  else
    match store (getStorageKey payload) with
    | some stored =>
      if stored = "" then statsJson 0 0
      else
        match jsonParse stored.data with
        | some v => v
        | none => statsJson 0 0
    | none => statsJson 0 0

/-- stats[type] += 1 on the parsed object, in strict mode: replaces the
value of the named property when it is a nonnegative-integer number,
leaving every other member unchanged.  none models the executions outside
that fragment (TypeError on a non-object receiver is handled by the
caller; a missing property, a non-number value or a non-integer literal
would engage JS NaN / coercion behavior that the program never relies on
and that no claim involves). -/
def incNumLit : Json → Option Json
  | .num lit =>
    (match digitsToNat lit.data with
     | some n => some (.num (String.mk (natDigits (n + 1))))
     | none => none)
  | _ => none

def incObjField : JsonObj → String → Option JsonObj
  | .nil, _ => none
  | .cons k v tl, f =>
    if k = f then
      match incNumLit v with
      | some v' => some (.cons k v' tl)
      | none => none
    else
      match incObjField tl f with
      | some tl' => some (.cons k v tl')
      | none => none

/-- updateIntentionStats: read stats, increment the counter for the kind,
write the serialization back under the same key, return the new stats.
none models a thrown error (TypeError on a non-object value in strict
mode, ReferenceError on localStorage outside a browser), in which case
nothing is written. -/
def updateIntentionStats (hasWindow : Bool) (store : Store) (payload : String)
    (kind : InteractionKind) : Option (Json × Store) :=
  match getIntentionStats hasWindow store payload with
  | .obj ms =>
    match incObjField ms (kindField kind) with
    | some ms' =>
      if hasWindow then
        some (.obj ms',
          setStore store (getStorageKey payload) (String.mk (stringifyJson (.obj ms'))))
      else none
    | none => none
  | _ => none

/-- n sequential updateIntentionStats calls in a browser, threading the
store; the result of the last call. -/
def recordN : Nat → Store → String → InteractionKind → Option (Json × Store)
  | 0, _, _, _ => none
  | n + 1, store, payload, kind =>
    match updateIntentionStats true store payload kind with
    | some (stats, store') =>
      match n with
      | 0 => some (stats, store')
      | m + 1 => recordN (m + 1) store' payload kind
    | none => none

/-- The store visible after a recordInteraction call, whether or not the
call completed (a thrown error leaves the store untouched). -/
def storeAfterRecord (hasWindow : Bool) (store : Store) (payload : String)
    (kind : InteractionKind) : Store :=
  match updateIntentionStats hasWindow store payload kind with
  | some (_, st) => st
  | none => store

/-! ## The URL-safe remap round trip -/

theorem remap_restore : ∀ v, v < 64 →
    repUnderscore (repDash (repSlash (repPlus (b64Char v)))) = b64Char v := by decide

theorem remap_ne_pad : ∀ v, v < 64 → repSlash (repPlus (b64Char v)) ≠ '=' := by decide

theorem urlSafe_remap : ∀ v, v < 64 →
    isUrlSafeChar (repSlash (repPlus (b64Char v))) = true := by decide

theorem pad_remap_fixed : repUnderscore (repDash (repSlash (repPlus '='))) = '=' := by decide

theorem fromUrlSafe_toUrlSafe (cs : List Char)
    (h : ∀ c ∈ cs, (∃ v, v < 64 ∧ c = b64Char v) ∨ c = '=') :
    fromUrlSafe (toUrlSafe cs) = cs.filter (fun c => c ≠ '=') := by
  induction cs with
  | nil => rfl
  | cons c cs ih =>
    have htail := ih (fun d hd => h d (by simp [hd]))
    rcases h c (by simp) with ⟨v, hv, hc⟩ | hc
    · subst hc
      have hne : repSlash (repPlus (b64Char v)) ≠ '=' := remap_ne_pad v hv
      unfold toUrlSafe fromUrlSafe at *
      simp only [List.map_cons, List.filter_cons]
      rw [if_pos (by simpa using hne)]
      simp only [List.map_cons]
      rw [if_pos (by simpa using b64Char_ne_pad v hv)]
      rw [show repUnderscore (repDash (repSlash (repPlus (b64Char v)))) = b64Char v from
        remap_restore v hv]
      exact congrArg _ htail
    · subst hc
      unfold toUrlSafe fromUrlSafe at *
      simp only [List.map_cons, List.filter_cons]
      rw [show repSlash (repPlus '=') = '=' from by decide]
      rw [if_neg (by simp), if_neg (by simp)]
      exact htail

theorem filterMap_b64Val_filter_pad (cs : List Char) :
    (cs.filter (fun c => c ≠ '=')).filterMap b64Val = cs.filterMap b64Val := by
  induction cs with
  | nil => rfl
  | cons c cs ih =>
    by_cases hc : c = '='
    · subst hc
      rw [List.filter_cons, if_neg (by simp), List.filterMap_cons, b64Val_pad, ih]
    · rw [List.filter_cons, if_pos (by simpa using hc), List.filterMap_cons]
      cases hv : b64Val c with
      | none => rw [List.filterMap_cons, hv, ih]
      | some v => rw [List.filterMap_cons, hv, ih]

theorem filterMap_b64Val_replicate_pad (k : Nat) :
    (List.replicate k '=').filterMap b64Val = [] := by
  induction k with
  | zero => rfl
  | succ k ih => rw [List.replicate_succ, List.filterMap_cons, b64Val_pad, ih]

/-- Full byte-level round trip through encodeIntention's tail and
decodeIntention's head: remap, strip, re-pad (to any target), forgiving
base64 decode. -/
theorem base64Decode_padEnd_roundtrip (bytes : List Nat) (h : ∀ b ∈ bytes, b < 256)
    (target : Nat) :
    base64Decode (padEndChar (fromUrlSafe (toUrlSafe (base64Encode bytes))) target '=') =
      bytes := by
  unfold base64Decode padEndChar
  rw [List.filterMap_append, filterMap_b64Val_replicate_pad, List.append_nil,
    fromUrlSafe_toUrlSafe (base64Encode bytes) (base64Encode_mem bytes h),
    filterMap_b64Val_filter_pad, b64_roundtrip bytes h]

/-- The text JSON.parse sees when decoding an encoded intention is exactly
the serialized record. -/
theorem decodedText_encodeIntention (i : IntentionData) :
    decodedText (encodeIntention i) = stringifyJson (jsonOfIntention i) := by
  unfold decodedText encodeIntention
  rw [show (String.mk (toUrlSafe (base64Encode (utf8Encode
      (stringifyJson (jsonOfIntention i)))))).data =
    toUrlSafe (base64Encode (utf8Encode (stringifyJson (jsonOfIntention i)))) from rfl]
  rw [base64Decode_padEnd_roundtrip _ (utf8Encode_byte_lt _) _, utf8Decode_encode]

/-! ## Parsing is a left inverse of serialization -/

theorem skipWs_not_ws (c : Char) (cs : List Char) (h : isJsonWs c = false) :
    skipWs (c :: cs) = c :: cs := by
  rw [skipWs, h]
  simp

theorem escapeList_length_ge (s : List Char) : s.length ≤ (escapeList s).length := by
  induction s with
  | nil => simp [escapeList]
  | cons c s ih =>
    rw [escapeList]
    simp only [List.length_append, List.length_cons]
    have : 1 ≤ (escapeChar c).length := by
      unfold escapeChar
      repeat' split
      all_goals simp
    omega

theorem parseHexDigit_hexDigitChar : ∀ k, k < 16 →
    parseHexDigit (hexDigitChar k) = some k := by
  intro k hk
  interval_cases k <;> decide

theorem parseJStrBody_close (f : Nat) (rest : List Char) :
    parseJStrBody (f + 1) ('"' :: rest) = some ([], rest) := by
  rw [parseJStrBody.eq_def]
  dsimp only
  rw [if_pos rfl]

theorem parseJStrBody_plain (f : Nat) (c : Char) (cs : List Char)
    (h1 : c ≠ '"') (h2 : c ≠ '\\') (h3 : ¬ c.toNat < 32) :
    parseJStrBody (f + 1) (c :: cs) = parseJStrBody.consFst c (parseJStrBody f cs) := by
  rw [parseJStrBody.eq_def]
  dsimp only
  rw [if_neg h1, if_neg h2, if_neg h3]

theorem parseUEscape_ctrl (t : Nat) (ht : t < 32) (rest : List Char) :
    parseUEscape ('0' :: '0' :: hexDigitChar (t / 16) :: hexDigitChar (t % 16) :: rest) =
      some (Char.ofNat t, rest) := by
  rw [parseUEscape]
  rw [show parseHexDigit '0' = some 0 from by decide,
    parseHexDigit_hexDigitChar (t / 16) (by omega),
    parseHexDigit_hexDigitChar (t % 16) (by omega)]
  dsimp only
  rw [if_neg (by omega), if_neg (by omega)]
  have : 0 * 4096 + 0 * 256 + t / 16 * 16 + t % 16 = t := by omega
  rw [this]

theorem parseJStrBody_escape_step (f : Nat) (cs : List Char) (e : Char) (r : List Char)
    (h : parseEscape cs = some (e, r)) :
    parseJStrBody (f + 1) ('\\' :: cs) =
      parseJStrBody.consFst e (parseJStrBody f r) := by
  rw [parseJStrBody.eq_def]
  dsimp only
  rw [if_neg (by decide), if_pos rfl, h]

theorem parseJStrBody_esc_quote (f : Nat) (X : List Char) :
    parseJStrBody (f + 1) ('\\' :: '"' :: X) =
      parseJStrBody.consFst '"' (parseJStrBody f X) :=
  parseJStrBody_escape_step f ('"' :: X) '"' X rfl

theorem parseJStrBody_esc_backslash (f : Nat) (X : List Char) :
    parseJStrBody (f + 1) ('\\' :: '\\' :: X) =
      parseJStrBody.consFst '\\' (parseJStrBody f X) :=
  parseJStrBody_escape_step f ('\\' :: X) '\\' X rfl

theorem parseJStrBody_esc_b (f : Nat) (X : List Char) :
    parseJStrBody (f + 1) ('\\' :: 'b' :: X) =
      parseJStrBody.consFst (Char.ofNat 8) (parseJStrBody f X) :=
  parseJStrBody_escape_step f ('b' :: X) (Char.ofNat 8) X rfl

theorem parseJStrBody_esc_t (f : Nat) (X : List Char) :
    parseJStrBody (f + 1) ('\\' :: 't' :: X) =
      parseJStrBody.consFst (Char.ofNat 9) (parseJStrBody f X) :=
  parseJStrBody_escape_step f ('t' :: X) (Char.ofNat 9) X rfl

theorem parseJStrBody_esc_n (f : Nat) (X : List Char) :
    parseJStrBody (f + 1) ('\\' :: 'n' :: X) =
      parseJStrBody.consFst (Char.ofNat 10) (parseJStrBody f X) :=
  parseJStrBody_escape_step f ('n' :: X) (Char.ofNat 10) X rfl

theorem parseJStrBody_esc_f (f : Nat) (X : List Char) :
    parseJStrBody (f + 1) ('\\' :: 'f' :: X) =
      parseJStrBody.consFst (Char.ofNat 12) (parseJStrBody f X) :=
  parseJStrBody_escape_step f ('f' :: X) (Char.ofNat 12) X rfl

theorem parseJStrBody_esc_r (f : Nat) (X : List Char) :
    parseJStrBody (f + 1) ('\\' :: 'r' :: X) =
      parseJStrBody.consFst (Char.ofNat 13) (parseJStrBody f X) :=
  parseJStrBody_escape_step f ('r' :: X) (Char.ofNat 13) X rfl

theorem parseJStrBody_esc_u (f : Nat) (X : List Char) (e : Char) (r2 : List Char)
    (h : parseUEscape X = some (e, r2)) :
    parseJStrBody (f + 1) ('\\' :: 'u' :: X) =
      parseJStrBody.consFst e (parseJStrBody f r2) :=
  parseJStrBody_escape_step f ('u' :: X) e r2
    (by rw [show parseEscape ('u' :: X) = parseUEscape X from rfl, h])

/-- Parsing the escaped body of a string gives back the original
characters and consumes the closing quote. -/
theorem parseJStrBody_escapeList (s : List Char) : ∀ f rest, s.length + 1 ≤ f →
    parseJStrBody f (escapeList s ++ '"' :: rest) = some (s, rest) := by
  induction s with
  | nil =>
    intro f rest hf
    obtain ⟨f', rfl⟩ : ∃ f', f = f' + 1 := ⟨f - 1, by omega⟩
    rw [escapeList, List.nil_append, parseJStrBody_close]
  | cons c s ih =>
    intro f rest hf
    obtain ⟨f', rfl⟩ : ∃ f', f = f' + 1 := ⟨f - 1, by omega⟩
    simp only [List.length_cons] at hf
    have hih := ih f' rest (by omega)
    rw [escapeList, List.append_assoc]
    by_cases h1 : c = '"'
    · subst h1
      rw [show escapeChar '"' = ['\\', '"'] from by decide, List.cons_append,
        List.cons_append, List.nil_append, parseJStrBody_esc_quote, hih]
      rfl
    · by_cases h2 : c = '\\'
      · subst h2
        rw [show escapeChar '\\' = ['\\', '\\'] from by decide, List.cons_append,
          List.cons_append, List.nil_append, parseJStrBody_esc_backslash, hih]
        rfl
      · by_cases h8 : c.toNat = 8
        · have hc : c = Char.ofNat 8 := by
            rw [char_eq_iff_toNat, toNat_charOfNat 8 (Or.inl (by omega)), h8]
          subst hc
          rw [show escapeChar (Char.ofNat 8) = ['\\', 'b'] from by decide,
            List.cons_append, List.cons_append, List.nil_append,
            parseJStrBody_esc_b, hih]
          rfl
        · by_cases h9 : c.toNat = 9
          · have hc : c = Char.ofNat 9 := by
              rw [char_eq_iff_toNat, toNat_charOfNat 9 (Or.inl (by omega)), h9]
            subst hc
            rw [show escapeChar (Char.ofNat 9) = ['\\', 't'] from by decide,
              List.cons_append, List.cons_append, List.nil_append,
              parseJStrBody_esc_t, hih]
            rfl
          · by_cases h10 : c.toNat = 10
            · have hc : c = Char.ofNat 10 := by
                rw [char_eq_iff_toNat, toNat_charOfNat 10 (Or.inl (by omega)), h10]
              subst hc
              rw [show escapeChar (Char.ofNat 10) = ['\\', 'n'] from by decide,
                List.cons_append, List.cons_append, List.nil_append,
                parseJStrBody_esc_n, hih]
              rfl
            · by_cases h12 : c.toNat = 12
              · have hc : c = Char.ofNat 12 := by
                  rw [char_eq_iff_toNat, toNat_charOfNat 12 (Or.inl (by omega)), h12]
                subst hc
                rw [show escapeChar (Char.ofNat 12) = ['\\', 'f'] from by decide,
                  List.cons_append, List.cons_append, List.nil_append,
                  parseJStrBody_esc_f, hih]
                rfl
              · by_cases h13 : c.toNat = 13
                · have hc : c = Char.ofNat 13 := by
                    rw [char_eq_iff_toNat, toNat_charOfNat 13 (Or.inl (by omega)), h13]
                  subst hc
                  rw [show escapeChar (Char.ofNat 13) = ['\\', 'r'] from by decide,
                    List.cons_append, List.cons_append, List.nil_append,
                    parseJStrBody_esc_r, hih]
                  rfl
                · by_cases h32 : c.toNat < 32
                  · rw [escapeChar, if_neg h1, if_neg h2, if_neg h8, if_neg h9,
                      if_neg h10, if_neg h12, if_neg h13, if_pos h32,
                      List.cons_append, List.cons_append, List.cons_append,
                      List.cons_append, List.cons_append, List.cons_append,
                      List.nil_append,
                      parseJStrBody_esc_u f' _ (Char.ofNat c.toNat) _
                        (parseUEscape_ctrl c.toNat h32 _), hih, charOfNat_toNat]
                    rfl
                  · rw [escapeChar, if_neg h1, if_neg h2, if_neg h8, if_neg h9,
                      if_neg h10, if_neg h12, if_neg h13, if_neg h32,
                      List.cons_append, List.nil_append,
                      parseJStrBody_plain f' c _ h1 h2 h32, hih]
                    rfl

/-- A string value parses back to itself wherever it occurs. -/
theorem parseVal_str (f : Nat) (s : List Char) (r : List Char) :
    parseVal (f + 1) (quoteJson s ++ r) = some (.str (String.mk s), r) := by
  rw [quoteJson, List.cons_append, List.append_assoc, List.cons_append, List.nil_append]
  rw [parseVal.eq_def]
  dsimp only
  rw [skipWs_not_ws '"' _ (by decide)]
  dsimp only
  rw [if_neg (by decide), if_neg (by decide), if_pos rfl]
  rw [parseJStrBody_escapeList s ((escapeList s ++ '"' :: r).length + 1) r
    (by simp only [List.length_append, List.length_cons];
        have := escapeList_length_ge s; omega)]

theorem digitChar_ne (d : Char) (h : isDigitChar d = true) (c : Char)
    (hc : ¬ (48 ≤ c.toNat ∧ c.toNat ≤ 57)) : d ≠ c := by
  intro he
  subst he
  simp [isDigitChar] at h
  omega

theorem digit_not_ws (d : Char) (h : isDigitChar d = true) : isJsonWs d = false := by
  have ht : 48 ≤ d.toNat ∧ d.toNat ≤ 57 := by simpa [isDigitChar] using h
  simp only [isJsonWs, char_eq_iff_toNat, show (' ').toNat = 32 from rfl]
  simp only [Bool.or_eq_false_iff, decide_eq_false_iff_not]
  omega

theorem takeDigits_prefix (ds : List Char) (h : ∀ c ∈ ds, isDigitChar c = true) :
    ∀ (c : Char) (rest : List Char), isDigitChar c = false →
      takeDigits (ds ++ c :: rest) = (ds, c :: rest) := by
  induction ds with
  | nil =>
    intro c rest hc
    rw [List.nil_append, takeDigits, hc]
    simp
  | cons d ds ih =>
    intro c rest hc
    rw [List.cons_append, takeDigits, h d (by simp)]
    simp only [if_true]
    rw [ih (fun x hx => h x (by simp [hx])) c rest hc]

/-- The decimal print of n, followed by a non-digit non-fraction
non-exponent character, is matched exactly by the JSON number grammar. -/
theorem parseNumber_natDigits (n : Nat) (c : Char) (rest : List Char)
    (hc : isDigitChar c = false) (hdot : c ≠ '.') (he : c ≠ 'e') (hE : c ≠ 'E') :
    parseNumber (natDigits n ++ c :: rest) = some (natDigits n, c :: rest) := by
  have hdigits := natDigits_all_digits n
  have hne := natDigits_ne_nil n
  rcases hnd : natDigits n with _ | ⟨d, ds⟩
  · exact absurd hnd hne
  · have hd : isDigitChar d = true := by
      apply hdigits; rw [hnd]; simp
    have hds : ∀ x ∈ ds, isDigitChar x = true := by
      intro x hx; apply hdigits; rw [hnd]; simp [hx]
    unfold parseNumber
    rw [List.cons_append, parseSign, if_neg (digitChar_ne d hd '-' (by decide))]
    dsimp only
    have hint : parseIntPart (d :: (ds ++ c :: rest)) = some (d :: ds, c :: rest) := by
      by_cases hz : d = '0'
      · subst hz
        have hds_nil : ds = [] := by
          by_cases hn0 : n = 0
          · subst hn0
            have : natDigits 0 = ['0'] := by decide
            rw [this] at hnd
            have h2 := hnd.symm
            simp at h2
            exact h2
          · exact absurd rfl (natDigits_head_ne_zero n hn0 '0' (by rw [hnd]; rfl))
        subst hds_nil
        rw [parseIntPart, if_pos rfl, List.nil_append]
      · rw [parseIntPart, if_neg hz, if_pos hd,
          takeDigits_prefix ds hds c rest hc]
    rw [hint]
    dsimp only
    rw [parseFrac, if_neg hdot]
    dsimp only
    rw [parseExp.eq_def]
    dsimp only
    rw [if_neg (not_or.mpr ⟨he, hE⟩)]
    dsimp only
    rw [List.nil_append, List.append_nil, List.append_nil]

/-- A number value parses back to its literal wherever a non-digit
separator follows. -/
theorem parseVal_num (f : Nat) (n : Nat) (c : Char) (rest : List Char)
    (hc : isDigitChar c = false) (hdot : c ≠ '.') (he : c ≠ 'e') (hE : c ≠ 'E') :
    parseVal (f + 1) (natDigits n ++ c :: rest) =
      some (.num (String.mk (natDigits n)), c :: rest) := by
  have hdigits := natDigits_all_digits n
  have hne := natDigits_ne_nil n
  rcases hnd : natDigits n with _ | ⟨d, ds⟩
  · exact absurd hnd hne
  · have hd : isDigitChar d = true := by
      apply hdigits; rw [hnd]; simp
    rw [List.cons_append, parseVal.eq_def]
    dsimp only
    rw [skipWs_not_ws d _ (digit_not_ws d hd)]
    dsimp only
    rw [if_neg (digitChar_ne d hd '{' (by decide)),
      if_neg (digitChar_ne d hd '[' (by decide)),
      if_neg (digitChar_ne d hd '"' (by decide)),
      if_neg (digitChar_ne d hd 't' (by decide)),
      if_neg (digitChar_ne d hd 'f' (by decide)),
      if_neg (digitChar_ne d hd 'n' (by decide))]
    rw [show d :: (ds ++ c :: rest) = natDigits n ++ c :: rest from by
      rw [hnd, List.cons_append]]
    rw [parseNumber_natDigits n c rest hc hdot he hE]
    dsimp only
    rw [hnd]

theorem string_mk_data (s : String) : String.mk s.data = s := rfl

/-- Values whose serialization this development re-parses: strings, and
numbers printed from a natural (the only numbers the program writes). -/
def goodVal (v : Json) : Prop :=
  (∃ s, v = .str s) ∨ (∃ n, v = .num (String.mk (natDigits n)))

def goodObj : JsonObj → Prop
  | .nil => True
  | .cons _ v tl => goodVal v ∧ goodObj tl

def memberCount : JsonObj → Nat
  | .nil => 0
  | .cons _ _ tl => memberCount tl + 1

theorem parseVal_good (f : Nat) (v : Json) (hv : goodVal v) (c : Char)
    (rest : List Char) (hsep : c = ',' ∨ c = '}') :
    parseVal (f + 1) (stringifyJson v ++ c :: rest) = some (v, c :: rest) := by
  rcases hv with ⟨s, rfl⟩ | ⟨n, rfl⟩
  · rw [show stringifyJson (.str s) = quoteJson s.data from rfl, parseVal_str,
      string_mk_data]
  · rw [show stringifyJson (.num (String.mk (natDigits n))) = natDigits n from rfl]
    rcases hsep with rfl | rfl
    · exact parseVal_num f n ',' rest (by decide) (by decide) (by decide) (by decide)
    · exact parseVal_num f n '}' rest (by decide) (by decide) (by decide) (by decide)

theorem stringifyObj_head (ms : JsonObj) (hne : ms ≠ .nil) :
    ∃ tail, stringifyObj ms = '"' :: tail := by
  rcases ms with _ | ⟨k, v, tl⟩
  · exact absurd rfl hne
  · rcases tl with _ | ⟨k', v', tl'⟩
    · exact ⟨escapeList k.data ++ ['"'] ++ (':' :: stringifyJson v), by
        rw [stringifyObj, quoteJson]
        simp⟩
    · exact ⟨escapeList k.data ++ ['"'] ++ (':' :: stringifyJson v ++
        ',' :: stringifyObj (.cons k' v' tl')), by
        rw [stringifyObj, quoteJson]
        simp⟩

/-- Parsing the serialized members of a nonempty object of good values
gives them back and consumes the closing brace. -/
theorem parseMembers_stringifyObj : ∀ (ms : JsonObj) (f : Nat) (rest : List Char),
    goodObj ms → ms ≠ .nil → memberCount ms + 1 ≤ f →
    parseMembers f (stringifyObj ms ++ '}' :: rest) = some (ms, rest)
  | .nil, _, _, _, hne, _ => absurd rfl hne
  | .cons k v tl, f, rest, hg, _, hf => by
    obtain ⟨f'', rfl⟩ : ∃ f'', f = f'' + 1 + 1 := by
      refine ⟨f - 2, ?_⟩
      simp [memberCount] at hf
      omega
    rcases hg with ⟨hgv, hgtl⟩
    rcases htl : tl with _ | ⟨k', v', tl'⟩
    · rw [stringifyObj, quoteJson]
      simp only [List.cons_append, List.nil_append, List.append_assoc]
      rw [parseMembers.eq_def]
      dsimp only
      rw [skipWs_not_ws '"' _ (by decide)]
      dsimp only
      rw [if_pos rfl]
      rw [parseJStrBody_escapeList k.data _ _
        (by simp only [List.length_append, List.length_cons];
            have := escapeList_length_ge k.data; omega)]
      dsimp only
      rw [skipWs_not_ws ':' _ (by decide)]
      dsimp only
      rw [if_pos rfl]
      rw [parseVal_good f'' v hgv '}' rest (Or.inr rfl)]
      dsimp only
      rw [skipWs_not_ws '}' _ (by decide)]
      dsimp only
      rw [if_neg (by decide), if_pos rfl, string_mk_data]
    · rw [stringifyObj, quoteJson]
      simp only [List.cons_append, List.nil_append, List.append_assoc]
      rw [parseMembers.eq_def]
      dsimp only
      rw [skipWs_not_ws '"' _ (by decide)]
      dsimp only
      rw [if_pos rfl]
      rw [parseJStrBody_escapeList k.data _ _
        (by simp only [List.length_append, List.length_cons];
            have := escapeList_length_ge k.data; omega)]
      dsimp only
      rw [skipWs_not_ws ':' _ (by decide)]
      dsimp only
      rw [if_pos rfl]
      rw [parseVal_good f'' v hgv ',' _ (Or.inl rfl)]
      dsimp only
      rw [skipWs_not_ws ',' _ (by decide)]
      dsimp only
      rw [if_pos rfl]
      rw [parseMembers_stringifyObj (.cons k' v' tl') (f'' + 1) rest
        (htl ▸ hgtl) (by simp) (by
          rw [htl] at hf
          simp [memberCount] at hf ⊢
          omega)]

/-- A serialized nonempty object of good values parses back wherever it
occurs. -/
theorem parseVal_obj (f : Nat) (ms : JsonObj) (rest : List Char)
    (hg : goodObj ms) (hne : ms ≠ .nil) (hf : memberCount ms + 2 ≤ f) :
    parseVal f (stringifyJson (.obj ms) ++ rest) = some (.obj ms, rest) := by
  obtain ⟨f', rfl⟩ : ∃ f', f = f' + 1 := ⟨f - 1, by omega⟩
  obtain ⟨tail, htail⟩ := stringifyObj_head ms hne
  rw [show stringifyJson (.obj ms) = '{' :: (stringifyObj ms ++ ['}']) from rfl,
    List.cons_append, List.append_assoc, List.cons_append, List.nil_append]
  rw [parseVal.eq_def]
  dsimp only
  rw [skipWs_not_ws '{' _ (by decide)]
  dsimp only
  rw [if_pos rfl, htail, List.cons_append, skipWs_not_ws '"' _ (by decide)]
  dsimp only
  rw [if_neg (by decide), ← List.cons_append, ← htail,
    parseMembers_stringifyObj ms f' rest hg hne (by omega)]

theorem quoteJson_length (s : List Char) :
    (quoteJson s).length = (escapeList s).length + 2 := by
  rw [quoteJson]
  simp

theorem stringifyObj_length_ge : ∀ ms : JsonObj,
    memberCount ms ≤ (stringifyObj ms).length
  | .nil => by simp [memberCount, stringifyObj]
  | .cons k v .nil => by
    rw [memberCount, stringifyObj]
    simp only [List.length_append, List.length_cons, quoteJson_length, memberCount]
    omega
  | .cons k v (.cons k' v' tl) => by
    have ih := stringifyObj_length_ge (.cons k' v' tl)
    rw [memberCount, stringifyObj]
    simp only [List.length_append, List.length_cons, quoteJson_length]
    omega

/-- JSON.parse inverts JSON.stringify on the nonempty flat objects the
program writes. -/
theorem jsonParse_stringifyJson_obj (ms : JsonObj) (hg : goodObj ms)
    (hne : ms ≠ .nil) :
    jsonParse (stringifyJson (.obj ms)) = some (.obj ms) := by
  unfold jsonParse
  have hlen : memberCount ms + 2 ≤ (stringifyJson (.obj ms)).length + 1 := by
    rw [show stringifyJson (.obj ms) = '{' :: (stringifyObj ms ++ ['}']) from rfl]
    simp only [List.length_cons, List.length_append]
    have := stringifyObj_length_ge ms
    simp
    omega
  have h := parseVal_obj ((stringifyJson (.obj ms)).length + 1) ms [] hg hne hlen
  rw [List.append_nil] at h
  rw [h]
  rfl

theorem goodObj_intention (i : IntentionData) :
    ∃ ms, jsonOfIntention i = .obj ms ∧ goodObj ms ∧ ms ≠ .nil := by
  unfold jsonOfIntention
  refine ⟨_, rfl, ?_, by simp⟩
  rcases i.where' with _ | w <;> rcases i.note with _ | x <;>
    simp [optMember, goodObj, goodVal] <;>
    exact ⟨i.createdAt, rfl⟩

/-- Decoding an encoded intention succeeds and returns precisely the JSON
object of the record. -/
theorem decodeIntention_encodeIntention (i : IntentionData) :
    decodeIntention (encodeIntention i) = .ok (jsonOfIntention i) := by
  obtain ⟨ms, hms, hg, hne⟩ := goodObj_intention i
  unfold decodeIntention
  rw [decodedText_encodeIntention i]
  have hp : jsonParse (stringifyJson (jsonOfIntention i)) = some (jsonOfIntention i) := by
    rw [hms]
    exact jsonParse_stringifyJson_obj ms hg hne
  have hne' : stringifyJson (jsonOfIntention i) ≠ [] := by
    rw [hms, show stringifyJson (.obj ms) = '{' :: (stringifyObj ms ++ ['}']) from rfl]
    simp
  rw [if_neg hne', hp]

/-- Reading the fields back out of the decoded JSON object recovers the
record, optional fields present exactly when they were present. -/
theorem intentionFromJson_jsonOfIntention (i : IntentionData) :
    intentionFromJson (jsonOfIntention i) = some i := by
  obtain ⟨whatV, whenV, whereV, noteV, created⟩ := i
  unfold jsonOfIntention intentionFromJson
  rcases whereV with _ | w <;> rcases noteV with _ | x <;>
    simp [optMember, objGet, digitsToNat_natDigits]

/-- JS property lookup on a JSON value: members for objects, nothing
otherwise. -/
def objGetJson : Json → String → Option Json
  | .obj ms, f => objGet ms f
  | _, _ => none

theorem jsonParse_statsJson (a b : Nat) :
    jsonParse (stringifyJson (statsJson a b)) = some (statsJson a b) := by
  unfold statsJson
  exact jsonParse_stringifyJson_obj _ ⟨Or.inr ⟨a, rfl⟩, Or.inr ⟨b, rfl⟩, trivial⟩ (by simp)

theorem stringifyJson_statsJson_ne_nil (a b : Nat) :
    stringifyJson (statsJson a b) ≠ [] := by
  rw [show stringifyJson (statsJson a b) =
    '{' :: (stringifyObj (.cons "interested" (.num (String.mk (natDigits a)))
      (.cons "here" (.num (String.mk (natDigits b))) .nil)) ++ ['}']) from rfl]
  simp

/-- Reading back a freshly written stats object parses it again. -/
theorem getStats_after_write (store : Store) (p : String) (a b : Nat) :
    getIntentionStats true (setStore store (getStorageKey p)
      (String.mk (stringifyJson (statsJson a b)))) p = statsJson a b := by
  unfold getIntentionStats setStore
  rw [if_neg (by decide), if_pos rfl]
  dsimp only
  rw [if_neg (by
    intro h
    have : (String.mk (stringifyJson (statsJson a b))).data = ("" : String).data := by
      rw [h]
    exact stringifyJson_statsJson_ne_nil a b this)]
  rw [jsonParse_statsJson a b]

theorem incNumLit_natDigits (a : Nat) :
    incNumLit (.num (String.mk (natDigits a))) =
      some (.num (String.mk (natDigits (a + 1)))) := by
  unfold incNumLit
  dsimp only
  rw [digitsToNat_natDigits]

theorem incObjField_statsJson_interested (a b : Nat) :
    incObjField (.cons "interested" (.num (String.mk (natDigits a)))
      (.cons "here" (.num (String.mk (natDigits b))) .nil)) "interested" =
    some (.cons "interested" (.num (String.mk (natDigits (a + 1))))
      (.cons "here" (.num (String.mk (natDigits b))) .nil)) := by
  rw [incObjField, if_pos rfl, incNumLit_natDigits a]

/-- One recordInteraction("interested") call on a store whose stats read
back as the counters (a, b). -/
theorem update_interested_step (store : Store) (p : String) (a b : Nat)
    (h : getIntentionStats true store p = statsJson a b) :
    updateIntentionStats true store p .interested =
      some (statsJson (a + 1) b,
        setStore store (getStorageKey p)
          (String.mk (stringifyJson (statsJson (a + 1) b)))) := by
  unfold updateIntentionStats
  rw [h, statsJson]
  dsimp only [kindField]
  rw [incObjField_statsJson_interested a b]
  dsimp only
  rw [show statsJson (a + 1) b = Json.obj (.cons "interested"
    (.num (String.mk (natDigits (a + 1))))
    (.cons "here" (.num (String.mk (natDigits b))) .nil)) from rfl]
  rw [if_pos rfl]

theorem setStore_setStore (store : Store) (k x y : String) :
    setStore (setStore store k x) k y = setStore store k y := by
  funext q
  unfold setStore
  by_cases h : q = k <;> simp [h]

/-- n + 1 sequential interested-calls starting from counters (a, 0). -/
theorem recordN_from (p : String) : ∀ (n : Nat) (store : Store) (a : Nat),
    getIntentionStats true store p = statsJson a 0 →
    recordN (n + 1) store p .interested =
      some (statsJson (a + n + 1) 0,
        setStore store (getStorageKey p)
          (String.mk (stringifyJson (statsJson (a + n + 1) 0)))) := by
  intro n
  induction n with
  | zero =>
    intro store a h
    rw [recordN, update_interested_step store p a 0 h]
  | succ n ih =>
    intro store a h
    rw [recordN, update_interested_step store p a 0 h]
    dsimp only
    rw [ih (setStore store (getStorageKey p)
        (String.mk (stringifyJson (statsJson (a + 1) 0)))) (a + 1)
        (getStats_after_write store p (a + 1) 0),
      setStore_setStore]
    rw [show a + 1 + n + 1 = a + (n + 1) + 1 from by omega]


theorem incObjField_statsJson_here (a b : Nat) :
    incObjField (.cons "interested" (.num (String.mk (natDigits a)))
      (.cons "here" (.num (String.mk (natDigits b))) .nil)) "here" =
    some (.cons "interested" (.num (String.mk (natDigits a)))
      (.cons "here" (.num (String.mk (natDigits (b + 1)))) .nil)) := by
  rw [incObjField, if_neg (by decide), incObjField, if_pos rfl, incNumLit_natDigits b]

/-- One recordInteraction("here") call on a store whose stats read back
as the counters (a, b). -/
theorem update_here_step (store : Store) (p : String) (a b : Nat)
    (h : getIntentionStats true store p = statsJson a b) :
    updateIntentionStats true store p .here =
      some (statsJson a (b + 1),
        setStore store (getStorageKey p)
          (String.mk (stringifyJson (statsJson a (b + 1))))) := by
  unfold updateIntentionStats
  rw [h, statsJson]
  dsimp only [kindField]
  rw [incObjField_statsJson_here a b]
  dsimp only
  rw [show statsJson a (b + 1) = Json.obj (.cons "interested"
    (.num (String.mk (natDigits a)))
    (.cons "here" (.num (String.mk (natDigits (b + 1)))) .nil)) from rfl]
  rw [if_pos rfl]

/-- n + 1 sequential here-calls starting from counters (0, b). -/
theorem recordN_from_here (p : String) : ∀ (n : Nat) (store : Store) (b : Nat),
    getIntentionStats true store p = statsJson 0 b →
    recordN (n + 1) store p .here =
      some (statsJson 0 (b + n + 1),
        setStore store (getStorageKey p)
          (String.mk (stringifyJson (statsJson 0 (b + n + 1))))) := by
  intro n
  induction n with
  | zero =>
    intro store b h
    rw [recordN, update_here_step store p 0 b h]
  | succ n ih =>
    intro store b h
    rw [recordN, update_here_step store p 0 b h]
    dsimp only
    rw [ih (setStore store (getStorageKey p)
        (String.mk (stringifyJson (statsJson 0 (b + 1))))) (b + 1)
        (getStats_after_write store p 0 (b + 1)),
      setStore_setStore]
    rw [show b + 1 + n + 1 = b + (n + 1) + 1 from by omega]

/-- Incrementing one property leaves every other property unchanged. -/
theorem incObjField_frame : ∀ (ms : JsonObj) (f : String) (ms' : JsonObj),
    incObjField ms f = some ms' →
    ∀ g, g ≠ f → objGet ms' g = objGet ms g
  | .nil, f, ms', h => by simp [incObjField] at h
  | .cons k v tl, f, ms', h => by
    intro g hg
    rw [incObjField] at h
    by_cases hk : k = f
    · rw [if_pos hk] at h
      rcases hv : incNumLit v with _ | v'
      · rw [hv] at h; simp at h
      · rw [hv] at h
        simp at h
        subst h
        rw [objGet, objGet,
          if_neg (by intro hh; exact hg (by rw [← hh]; exact hk)),
          if_neg (by intro hh; exact hg (by rw [← hh]; exact hk))]
    · rw [if_neg hk] at h
      rcases hrec : incObjField tl f with _ | tl'
      · rw [hrec] at h; simp at h
      · rw [hrec] at h
        simp at h
        subst h
        rw [objGet, objGet]
        by_cases hkg : k = g
        · rw [if_pos hkg, if_pos hkg]
        · rw [if_neg hkg, if_neg hkg]
          exact incObjField_frame tl f tl' hrec g hg

theorem urlSafe_not_reserved (c : Char) (h : isUrlSafeChar c = true) :
    c ≠ '+' ∧ c ≠ '/' ∧ c ≠ '=' := by
  refine ⟨?_, ?_, ?_⟩ <;> rintro rfl <;> exact absurd h (by decide)

/-! ## The claims -/

/-- C3: for every intention whose scheduled time parses to T and every
current time, isIntentionExpired is true exactly when now exceeds
T + 2 hours, strictly: false one millisecond before the boundary, false
exactly at the boundary, true one millisecond after. -/
theorem claim_expiry_boundary (dateParse : String → Option Int) (i : IntentionData)
    (now T : Int) (h : dateParse i.when = some T) :
    (isIntentionExpired dateParse i now = true ↔ now > T + twoHoursInMs) ∧
    isIntentionExpired dateParse i (T + twoHoursInMs - 1) = false ∧
    isIntentionExpired dateParse i (T + twoHoursInMs) = false ∧
    isIntentionExpired dateParse i (T + twoHoursInMs + 1) = true := by
  unfold isIntentionExpired
  rw [h]
  dsimp only
  refine ⟨by simp, ?_, ?_, ?_⟩ <;> simp [twoHoursInMs]

/-- C3 witness at a parser fixing the event time to epoch 0. -/
theorem claim_expiry_boundary_witness :
    (fun _ : String => some (0 : Int)) (IntentionData.when ⟨"a", "b", none, none, 0⟩) =
      some 0 ∧
    ((isIntentionExpired (fun _ : String => some (0 : Int)) ⟨"a", "b", none, none, 0⟩
        9000000 = true ↔ (9000000 : Int) > 0 + twoHoursInMs) ∧
      isIntentionExpired (fun _ : String => some (0 : Int)) ⟨"a", "b", none, none, 0⟩
        (0 + twoHoursInMs - 1) = false ∧
      isIntentionExpired (fun _ : String => some (0 : Int)) ⟨"a", "b", none, none, 0⟩
        (0 + twoHoursInMs) = false ∧
      isIntentionExpired (fun _ : String => some (0 : Int)) ⟨"a", "b", none, none, 0⟩
        (0 + twoHoursInMs + 1) = true) :=
  ⟨rfl, claim_expiry_boundary (fun _ => some 0) ⟨"a", "b", none, none, 0⟩ 9000000 0 rfl⟩

/-- C9: an intention whose date string does not parse (NaN timestamp) is
never reported expired, at any current time. -/
theorem claim_unparseable_not_expired (dateParse : String → Option Int)
    (i : IntentionData) (now : Int) (h : dateParse i.when = none) :
    isIntentionExpired dateParse i now = false := by
  unfold isIntentionExpired
  rw [h]

/-- C9 witness at an always-failing parser. -/
theorem claim_unparseable_not_expired_witness :
    (fun _ : String => (none : Option Int)) (IntentionData.when ⟨"a", "b", none, none, 0⟩) =
      none ∧
    isIntentionExpired (fun _ : String => (none : Option Int)) ⟨"a", "b", none, none, 0⟩
      12345 = false :=
  ⟨rfl, claim_unparseable_not_expired (fun _ => none) ⟨"a", "b", none, none, 0⟩ 12345 rfl⟩

/-- C10: a present-but-empty place string is treated exactly like an
absent one: getLocationPrecision returns the empty string at every
current time (the JS falsy test rejects the empty string). -/
theorem claim_empty_place (dateParse : String → Option Int) (i : IntentionData)
    (now : Int) (h : i.where' = some "") :
    getLocationPrecision dateParse i now = "" := by
  unfold getLocationPrecision
  rw [h]
  dsimp only
  rw [if_pos rfl]

/-- C10 witness. -/
theorem claim_empty_place_witness :
    IntentionData.where' ⟨"a", "b", some "", none, 0⟩ = some "" ∧
    getLocationPrecision (fun _ : String => some (0 : Int)) ⟨"a", "b", some "", none, 0⟩
      77 = "" :=
  ⟨rfl, claim_empty_place (fun _ => some 0) ⟨"a", "b", some "", none, 0⟩ 77 rfl⟩

/-- C4: location precision: empty for an absent place; for a present
nonempty place, when the event is more than one hour away the place is
coarsened to its last two comma segments (joined with a comma and
trimmed) whenever it has at least two segments, and is returned unchanged
when it has a single segment; at one hour or less (past included) the
full place is returned. -/
theorem claim_location_precision (dateParse : String → Option Int) (i : IntentionData)
    (now : Int) :
    (i.where' = none → getLocationPrecision dateParse i now = "") ∧
    (∀ T w, dateParse i.when = some T → i.where' = some w → w ≠ "" →
      ((T - now > oneHourInMs →
        (((splitOnComma w.data).length > 1 →
          getLocationPrecision dateParse i now =
            String.mk (trimChars (joinComma ((splitOnComma w.data).drop
              ((splitOnComma w.data).length - 2))))) ∧
         ((splitOnComma w.data).length ≤ 1 →
          getLocationPrecision dateParse i now = w))) ∧
       (T - now ≤ oneHourInMs → getLocationPrecision dateParse i now = w))) := by
  constructor
  · intro h
    unfold getLocationPrecision
    rw [h]
  · intro T w hT hw hne
    unfold getLocationPrecision
    rw [hw, hT]
    dsimp only
    rw [if_neg hne]
    constructor
    · intro hfar
      rw [decide_eq_true hfar, if_pos rfl]
      constructor
      · intro hlen
        rw [if_pos hlen]
      · intro hlen
        rw [if_neg (by omega)]
    · intro hnear
      rw [decide_eq_false (by omega), if_neg (by simp)]

/-- C4 witness: the spec's own example, an event three hours away with a
three-segment place coarsens to the last two segments. -/
theorem claim_location_precision_witness :
    getLocationPrecision (fun _ : String => some (10800000 : Int))
      ⟨"coffee", "w", some "Blue Bottle Coffee, Mission District, San Francisco", none, 0⟩
      0 = "Mission District, San Francisco" := by
  have h := (claim_location_precision (fun _ : String => some (10800000 : Int))
    ⟨"coffee", "w", some "Blue Bottle Coffee, Mission District, San Francisco", none, 0⟩
    0).2 10800000 "Blue Bottle Coffee, Mission District, San Francisco" rfl rfl (by decide)
  have h2 := (h.1 (by decide)).1 (by decide)
  rw [h2]
  decide

/-- C1: decoding an encoded well-formed intention succeeds and yields the
record field-for-field, optional fields present in the result exactly when
present in the input. -/
theorem claim_roundtrip (i : IntentionData) (_hwf : i.what ≠ "") :
    decodeIntention (encodeIntention i) = .ok (jsonOfIntention i) ∧
    intentionFromJson (jsonOfIntention i) = some i :=
  ⟨decodeIntention_encodeIntention i, intentionFromJson_jsonOfIntention i⟩

/-- C1 witness at a concrete intention with a place and no note. -/
theorem claim_roundtrip_witness :
    IntentionData.what ⟨"coffee", "2025-08-11T10:00", some "Dolores Park", none,
      1754900000000⟩ ≠ "" ∧
    (decodeIntention (encodeIntention ⟨"coffee", "2025-08-11T10:00",
        some "Dolores Park", none, 1754900000000⟩) =
      .ok (jsonOfIntention ⟨"coffee", "2025-08-11T10:00", some "Dolores Park", none,
        1754900000000⟩) ∧
     intentionFromJson (jsonOfIntention ⟨"coffee", "2025-08-11T10:00",
        some "Dolores Park", none, 1754900000000⟩) =
      some ⟨"coffee", "2025-08-11T10:00", some "Dolores Park", none, 1754900000000⟩) :=
  ⟨by decide, claim_roundtrip _ (by decide)⟩

/-- C2 counterexample: the URL-safe base64 of the five characters of the
word null decodes without any error to the JSON null value, which is not
a complete Intention — refuting the claim that an empty or null parsed
structure signals a DecodingError. -/
theorem claim_decode_counterexample :
    decodeIntention "bnVsbA" = .ok Json.null ∧ intentionFromJson Json.null = none :=
  ⟨by decide, by decide⟩

/-- C2 amended: decodeIntention signals a DecodingError exactly when the
decoded byte string is empty or fails to parse as JSON; when parsing
succeeds, the whole parsed value is returned unvalidated (it may be null,
a number, or a partial object). -/
theorem claim_decode_behavior (payload : String) :
    (decodedText payload = [] ∨ jsonParse (decodedText payload) = none →
      decodeIntention payload = .error decodeErrMsg) ∧
    (∀ v, jsonParse (decodedText payload) = some v → decodedText payload ≠ [] →
      decodeIntention payload = .ok v) := by
  unfold decodeIntention
  constructor
  · rintro (h | h)
    · rw [if_pos h]
    · by_cases he : decodedText payload = []
      · rw [if_pos he]
      · rw [if_neg he, h]
  · intro v hv hne
    rw [if_neg hne, hv]

/-- C2 witness: the null token exercises the unvalidated-success path. -/
theorem claim_decode_behavior_witness :
    jsonParse (decodedText "bnVsbA") = some Json.null ∧ decodedText "bnVsbA" ≠ [] ∧
    decodeIntention "bnVsbA" = .ok Json.null :=
  ⟨by decide, by decide,
    (claim_decode_behavior "bnVsbA").2 Json.null (by decide) (by decide)⟩

/-- C5: every character of an encoded intention is in the URL-safe class
A-Z, a-z, 0-9, underscore, dash; no plus, slash or equals sign remains. -/
theorem claim_token_alphabet (i : IntentionData) :
    ∀ c ∈ (encodeIntention i).data,
      isUrlSafeChar c = true ∧ c ≠ '+' ∧ c ≠ '/' ∧ c ≠ '=' := by
  intro c hc
  have hc' : c ∈ toUrlSafe (base64Encode (utf8Encode (stringifyJson (jsonOfIntention i)))) :=
    hc
  unfold toUrlSafe at hc'
  rcases List.mem_filter.mp hc' with ⟨hmem, hneq⟩
  rw [List.map_map] at hmem
  rcases List.mem_map.mp hmem with ⟨d, hd, rfl⟩
  rcases base64Encode_mem _ (utf8Encode_byte_lt _) d hd with ⟨v, hv, rfl⟩ | rfl
  · have husafe : isUrlSafeChar (repSlash (repPlus (b64Char v))) = true := urlSafe_remap v hv
    exact ⟨husafe, urlSafe_not_reserved _ husafe⟩
  · exfalso
    have : (repSlash ∘ repPlus) '=' = '=' := by decide
    rw [this] at hneq
    simp at hneq

/-- C5 witness at a concrete intention; its token begins with the letter
e (the base64 of an opening brace). -/
theorem claim_token_alphabet_witness :
    ('e' : Char) ∈ (encodeIntention ⟨"a", "b", none, none, 0⟩).data ∧
    (isUrlSafeChar 'e' = true ∧ ('e' : Char) ≠ '+' ∧ ('e' : Char) ≠ '/' ∧
      ('e' : Char) ≠ '=') :=
  ⟨by decide, claim_token_alphabet ⟨"a", "b", none, none, 0⟩ 'e' (by decide)⟩

/-- C6 counterexample: a stored value that is valid JSON but not an
InteractionStats (the number five) is returned as-is by getIntentionStats
rather than the zero default — refuting the claim that a value failing to
parse as InteractionStats yields the default. -/
theorem claim_stats_corrupt_counterexample :
    getIntentionStats true
      (fun k => if k = "ambient_stats_t" then some "5" else none) "t" = Json.num "5" ∧
    statsFromJson (Json.num "5") = none ∧ Json.num "5" ≠ statsJson 0 0 :=
  ⟨by decide, by decide, by decide⟩

/-- C6 amended: getIntentionStats never signals an error; it returns the
zero default when the entry is absent, empty, or not valid JSON, and
returns the parsed JSON value unvalidated otherwise. -/
theorem claim_stats_read (store : Store) (payload : String) :
    (store (getStorageKey payload) = none →
      getIntentionStats true store payload = statsJson 0 0) ∧
    (∀ s, store (getStorageKey payload) = some s → s = "" →
      getIntentionStats true store payload = statsJson 0 0) ∧
    (∀ s, store (getStorageKey payload) = some s → s ≠ "" → jsonParse s.data = none →
      getIntentionStats true store payload = statsJson 0 0) ∧
    (∀ s v, store (getStorageKey payload) = some s → s ≠ "" → jsonParse s.data = some v →
      getIntentionStats true store payload = v) := by
  refine ⟨?_, ?_, ?_, ?_⟩ <;> unfold getIntentionStats
  · intro h
    rw [if_neg (by decide), h]
  · intro s h hs
    rw [if_neg (by decide), h]
    dsimp only
    rw [if_pos hs]
  · intro s h hs hp
    rw [if_neg (by decide), h]
    dsimp only
    rw [if_neg hs, hp]
  · intro s v h hs hp
    rw [if_neg (by decide), h]
    dsimp only
    rw [if_neg hs, hp]

/-- C6 witness: an empty store reads back as the zero default. -/
theorem claim_stats_read_witness :
    (fun _ : String => (none : Option String)) (getStorageKey "t") = none ∧
    getIntentionStats true (fun _ : String => (none : Option String)) "t" =
      statsJson 0 0 :=
  ⟨rfl, (claim_stats_read (fun _ => none) "t").1 rfl⟩

/-- C7: on a store with no entry for the token, getIntentionStats returns
the zero stats, and n + 1 sequential calls for one kind return stats with
that kind's counter at n + 1 and the other counter still zero, the store
holding exactly their serialization under the derived key (each call
increments by one, writes back under the same key and returns the
result). -/
theorem claim_stats_increment (store : Store) (p : String)
    (h : store (getStorageKey p) = none) :
    getIntentionStats true store p = statsJson 0 0 ∧
    (∀ n, recordN (n + 1) store p .interested =
      some (statsJson (n + 1) 0,
        setStore store (getStorageKey p)
          (String.mk (stringifyJson (statsJson (n + 1) 0))))) ∧
    (∀ n, recordN (n + 1) store p .here =
      some (statsJson 0 (n + 1),
        setStore store (getStorageKey p)
          (String.mk (stringifyJson (statsJson 0 (n + 1)))))) := by
  have h0 : getIntentionStats true store p = statsJson 0 0 := by
    unfold getIntentionStats
    rw [if_neg (by decide), h]
  refine ⟨h0, fun n => ?_, fun n => ?_⟩
  · have hrec := recordN_from p n store 0 h0
    simpa using hrec
  · have hrec := recordN_from_here p n store 0 h0
    simpa using hrec

/-- C7 witness: three interested-calls on an empty store yield the
counter three. -/
theorem claim_stats_increment_witness :
    (fun _ : String => (none : Option String)) (getStorageKey "t") = none ∧
    recordN 3 (fun _ : String => (none : Option String)) "t" .interested =
      some (statsJson 3 0,
        setStore (fun _ : String => (none : Option String)) (getStorageKey "t")
          (String.mk (stringifyJson (statsJson 3 0)))) := by
  refine ⟨rfl, ?_⟩
  have h := (claim_stats_increment (fun _ => none) "t" rfl).2.1 2
  simpa using h

theorem update_inversion (hasWindow : Bool) (store : Store) (p : String)
    (kind : InteractionKind) (j : Json) (st : Store)
    (h : updateIntentionStats hasWindow store p kind = some (j, st)) :
    ∃ ms ms', getIntentionStats hasWindow store p = .obj ms ∧
      incObjField ms (kindField kind) = some ms' ∧ j = .obj ms' ∧
      st = setStore store (getStorageKey p)
        (String.mk (stringifyJson (.obj ms'))) := by
  unfold updateIntentionStats at h
  rcases hg : getIntentionStats hasWindow store p with _ | b | l | s | xs | ms <;>
    rw [hg] at h <;> dsimp only at h
  · cases h
  · cases h
  · cases h
  · cases h
  · cases h
  · rcases hinc : incObjField ms (kindField kind) with _ | ms' <;> rw [hinc] at h <;>
      dsimp only at h
    · cases h
    · cases hasWindow
      · rw [if_neg (by simp)] at h
        cases h
      · rw [if_pos rfl] at h
        injection h with h2
        injection h2 with hj hst
        exact ⟨ms, ms', rfl, hinc, hj.symm, hst.symm⟩

/-- C8: recordInteraction touches only the store entry at the derived
stats key: every other key is unchanged, and within the returned stats
only the counter for the given kind differs from what was read. -/
theorem claim_record_frame (hasWindow : Bool) (store : Store) (p : String)
    (kind : InteractionKind) :
    (∀ q, q ≠ getStorageKey p → storeAfterRecord hasWindow store p kind q = store q) ∧
    (∀ j st, updateIntentionStats hasWindow store p kind = some (j, st) →
      st (getStorageKey p) = some (String.mk (stringifyJson j)) ∧
      ∀ fld, fld ≠ kindField kind →
        objGetJson j fld = objGetJson (getIntentionStats hasWindow store p) fld) := by
  constructor
  · intro q hq
    unfold storeAfterRecord
    rcases hu : updateIntentionStats hasWindow store p kind with _ | ⟨j, st⟩
    · rfl
    · obtain ⟨ms, ms', hg, hinc, hj, hst⟩ :=
        update_inversion hasWindow store p kind j st hu
      dsimp only
      rw [hst]
      unfold setStore
      rw [if_neg hq]
  · intro j st hu
    obtain ⟨ms, ms', hg, hinc, hj, hst⟩ :=
      update_inversion hasWindow store p kind j st hu
    constructor
    · rw [hst]
      unfold setStore
      rw [if_pos rfl, hj]
    · intro fld hf
      rw [hj, hg]
      dsimp only [objGetJson]
      exact incObjField_frame ms (kindField kind) ms' hinc fld hf

/-- C8 witness: with an empty store, a key other than the derived stats
key is untouched by the call. -/
theorem claim_record_frame_witness :
    ("x" : String) ≠ getStorageKey "t" ∧
    storeAfterRecord true (fun _ : String => (none : Option String)) "t"
      .interested "x" = (fun _ : String => (none : Option String)) "x" :=
  ⟨by decide, (claim_record_frame true (fun _ => none) "t" .interested).1 "x" (by decide)⟩
